import Mathlib

/-!
Verification of the AmazonBusinessInvoiceFetcher repository.

Strings are modelled as `List Char` (ASCII fragment of Python's str), machine
integers as `Nat`/`Int`.  The Filing Engine (`file_manager.py`) is embedded as
pure functions over an explicit filesystem state; the Order Extraction Engine
(`client.py`) is embedded with the browser-dependent inputs (selector hits,
dateutil parses, HTTP responses) abstracted as explicit data, and the
scraping/filtering/download logic translated from the source.
-/

/-! ### Decimal rendering and parsing (Python str(n), f-string zero padding, int(s)) -/

/-- Decimal digits of a natural number, most significant first, computed with
explicit fuel so that the definition is structural and kernel-reducible.
Fuel `n+1` always suffices since a number has at most `n+1` digits. -/
def natDigitsFuel : Nat → Nat → List Char
  | 0, _ => []
  | fuel+1, n =>
    if n < 10 then [Nat.digitChar n]
    else natDigitsFuel fuel (n / 10) ++ [Nat.digitChar (n % 10)]

/-- Decimal representation of a natural number, as Python `str(n)` for `n ≥ 0`. -/
def natToDigits (n : Nat) : List Char := natDigitsFuel (n + 1) n

/-- Left pad with zeros to width `w`, as Python format spec `0{w}d` (no truncation). -/
def padZeros (w : Nat) (l : List Char) : List Char :=
  List.replicate (w - l.length) '0' ++ l

/-- Value of a list of decimal digit characters, as Python `int(s)` on an
all-digit string. -/
def fromDigits (l : List Char) : Nat :=
  l.foldl (fun acc c => acc * 10 + (c.toNat - 48)) 0

/-- Split exactly `k` leading decimal-digit characters off a string, as the
regex fragment `\d{k}`: fails when fewer than `k` digits lead the string. -/
def splitDigits : Nat → List Char → Option (List Char × List Char)
  | 0, l => some ([], l)
  | _+1, [] => none
  | k+1, c :: l =>
    if c.isDigit then (splitDigits k l).map (fun p => (c :: p.1, p.2)) else none

/-! ### Filing Engine: filename generation (file_manager.py, FileManager.generate_filename) -/

/-- Sanitization of the amount string: `re.sub(r"[^\d.]", "", amount)` keeps
exactly the decimal digits and periods (ASCII fragment). -/
def sanitizeAmount (s : List Char) : List Char :=
  s.filter (fun c => c.isDigit || c == '.')

/-- Word character of the regex class `\w` (ASCII fragment): alphanumeric or
underscore. -/
def isWordChar (c : Char) : Bool := c.isAlphanum || c == '_'

/-- Sanitization of the invoice number: `re.sub(r"[^\w\-.]", "", invoice_number)`
keeps exactly word characters, hyphens and periods. -/
def sanitizeInvoice (s : List Char) : List Char :=
  s.filter (fun c => isWordChar c || c == '-' || c == '.')

/-- Calendar date, as the (year, month, day) of a Python `datetime`. -/
structure Date where
  year : Nat
  month : Nat
  day : Nat
deriving DecidableEq, Repr

/-- Gregorian leap-year rule used by `datetime`. -/
def isLeapYear (y : Nat) : Bool :=
  y % 4 == 0 && (y % 100 != 0 || y % 400 == 0)

/-- Number of days in a month, as checked by the `datetime` constructor. -/
def daysInMonth (y m : Nat) : Nat :=
  if m == 2 then (if isLeapYear y then 29 else 28)
  else if m == 4 || m == 6 || m == 9 || m == 11 then 30
  else 31

/-- Validity of (year, month, day) per the `datetime` constructor:
`MINYEAR = 1 ≤ year ≤ 9999 = MAXYEAR`, `1 ≤ month ≤ 12`, day within the month. -/
def isValidDate (y m d : Nat) : Bool :=
  decide (1 ≤ y ∧ y ≤ 9999 ∧ 1 ≤ m ∧ m ≤ 12 ∧ 1 ≤ d ∧ d ≤ daysInMonth y m)

/-- FileManager.generate_filename:
`f"{year:04d}-{month:02d}-{day:02d}--{amount_clean}--{invoice_clean}.pdf"`. -/
def generate_filename (d : Date) (amount invoice_number : List Char) : List Char :=
  padZeros 4 (natToDigits d.year) ++
    '-' :: padZeros 2 (natToDigits d.month) ++
    '-' :: padZeros 2 (natToDigits d.day) ++
    '-' :: '-' :: sanitizeAmount amount ++
    '-' :: '-' :: sanitizeInvoice invoice_number ++
    ".pdf".toList

/-! ### Filing Engine: filename parsing (FileManager.parse_filename) -/

/-- Python `str.replace(".pdf", "")`: delete every occurrence of `.pdf`,
scanning left to right without rescanning produced text; fuel-indexed so the
definition is structural (fuel = length of the list always suffices). -/
def stripPdfFuel : Nat → List Char → List Char
  | 0, l => l
  | _+1, [] => []
  | fuel+1, c :: cs =>
    if c = '.' ∧ cs.take 3 = ['p', 'd', 'f'] then stripPdfFuel fuel (cs.drop 3)
    else c :: stripPdfFuel fuel cs

/-- Python `name.replace(".pdf", "")`. -/
def stripPdf (l : List Char) : List Char := stripPdfFuel l.length l

/-- Matcher for the anchored regex prefix
`^(\d{4})-(\d{2})-(\d{2})--([^-]+)--` followed by the rest of the string:
returns the five groups `(year, month, day, amount, tail)` where `tail` is the
text after the second `--` (to be constrained by `(.+)$`).  The amount group
`[^-]+` is forced to be the maximal run of non-hyphen characters: shortening it
by backtracking would leave a non-hyphen where the literal `--` must match. -/
def matchCore (l : List Char) :
    Option (List Char × List Char × List Char × List Char × List Char) :=
  match splitDigits 4 l with
  | some (ys, '-' :: r1) =>
    match splitDigits 2 r1 with
    | some (ms, '-' :: r2) =>
      match splitDigits 2 r2 with
      | some (ds, '-' :: '-' :: r3) =>
        let amt := r3.takeWhile (fun c => c != '-')
        if amt.isEmpty then none
        else
          match r3.dropWhile (fun c => c != '-') with
          | '-' :: '-' :: tail => some (ys, ms, ds, amt, tail)
          | _ => none
      | _ => none
    | _ => none
  | _ => none

/-- Matcher for the regex tail `(.+)$` with Python semantics: `.` matches any
character except a newline, and `$` matches at the end of the string or just
before a single trailing newline.  Returns the captured group. -/
def dotPlusEnd (rest : List Char) : Option (List Char) :=
  if rest.contains '\n' then
    if rest.getLast? == some '\n' && !(rest.dropLast.contains '\n')
        && !rest.dropLast.isEmpty
    then some rest.dropLast
    else none
  else if rest.isEmpty then none
  else some rest

/-- Parsed invoice record: the dictionary
`{"date": ..., "amount": ..., "invoice_number": ...}`. -/
structure ParsedInvoice where
  date : Date
  amount : List Char
  invoice_number : List Char
deriving DecidableEq, Repr

/-- FileManager.parse_filename: strip every `.pdf` occurrence, match
`^(\d{4})-(\d{2})-(\d{2})--([^-]+)--(.+)$`, then validate the date through the
`datetime` constructor (ValueError yields None). -/
def parse_filename (filename : List Char) : Option ParsedInvoice :=
  match matchCore (stripPdf filename) with
  | some (ys, ms, ds, amt, rest) =>
    match dotPlusEnd rest with
    | some inv =>
      if isValidDate (fromDigits ys) (fromDigits ms) (fromDigits ds)
      then some ⟨⟨fromDigits ys, fromDigits ms, fromDigits ds⟩, amt, inv⟩
      else none
    | none => none
  | none => none

/-- Acceptance condition stated by the specification for parse_filename:
the whole name matches `^(\d{4})-(\d{2})-(\d{2})--([^-]+)--(.+)\.pdf$` (regex
semantics as above: `$` allows one trailing newline, `.` excludes newlines)
and the extracted year/month/day form a valid calendar date.  This definition
follows the specification text and is compared against the implementation. -/
def parse_filename_spec_accepts (name : List Char) : Bool :=
  match (if ".pdf".toList.isSuffixOf name then some (name.take (name.length - 4))
    else if (".pdf\n".toList).isSuffixOf name then some (name.take (name.length - 5))
    else none) with
  | none => false
  | some core =>
    match matchCore core with
    | none => false
    | some (ys, ms, ds, _, inv) =>
      !inv.isEmpty && !inv.contains '\n' &&
        isValidDate (fromDigits ys) (fromDigits ms) (fromDigits ds)

/-! ### Filing Engine: filesystem state (base_dir layout `<base>/<year>/<month:02>/<filename>`)

Only files created through the Filing Engine live in the model; directories are
not tracked because `mkdir(parents=True, exist_ok=True)` is idempotent and an
empty directory contributes nothing to any observable result of the functions
under study.  A write failure is modelled at file-open time through an oracle
`writeErr` giving the underlying OS error message, the state being unchanged on
failure. -/

/-- One stored file `<base>/<yearDir>/<monthDir>/<fname>` with its byte content. -/
structure FileEntry where
  yearDir : List Char
  monthDir : List Char
  fname : List Char
  content : List Nat
deriving DecidableEq, Repr

/-- State of a FileManager: its base directory, the stored files, and the
write-failure oracle of the underlying filesystem. -/
structure FMState where
  base : List Char
  entries : List FileEntry
  writeErr : List Char × List Char × List Char → Option (List Char)

/-- Storage location of an invoice: `(str(year), f"{month:02d}", filename)`,
from FileManager.get_file_path. -/
def fileTriple (d : Date) (amount invoice_number : List Char) :
    List Char × List Char × List Char :=
  (natToDigits d.year, padZeros 2 (natToDigits d.month),
    generate_filename d amount invoice_number)

/-- Location of a stored file inside the base directory. -/
def entryTriple (e : FileEntry) : List Char × List Char × List Char :=
  (e.yearDir, e.monthDir, e.fname)

/-- FileManager.get_file_path as a path string. -/
def get_file_path (st : FMState) (d : Date) (amount invoice_number : List Char) :
    List Char :=
  st.base ++ '/' :: (fileTriple d amount invoice_number).1 ++
    '/' :: (fileTriple d amount invoice_number).2.1 ++
    '/' :: (fileTriple d amount invoice_number).2.2

/-- Content stored at a location, if any. -/
def lookupEntry (es : List FileEntry) (t : List Char × List Char × List Char) :
    Option (List Nat) :=
  (es.find? (fun e => entryTriple e == t)).map (fun e => e.content)

/-- FileManager.file_exists: existence check at the derived path. -/
def file_exists (st : FMState) (d : Date) (amount invoice_number : List Char) :
    Bool :=
  (lookupEntry st.entries (fileTriple d amount invoice_number)).isSome

/-- Write (create or truncate-and-overwrite) at a location, as
`open(file_path, "wb")` followed by a full write. -/
def upsert (es : List FileEntry) (t : List Char × List Char × List Char)
    (c : List Nat) : List FileEntry :=
  match es with
  | [] => [⟨t.1, t.2.1, t.2.2, c⟩]
  | e :: rest =>
    if entryTriple e == t then { e with content := c } :: rest
    else e :: upsert rest t c

/-- FileManager.save_invoice: write `content` to the derived path, returning
the path; on a write error raise
`FileError(f"Failed to save invoice {invoice_number}: {e}")`. -/
def save_invoice (st : FMState) (content : List Nat) (d : Date)
    (amount invoice_number : List Char) : Except (List Char) (FMState × List Char) :=
  match st.writeErr (fileTriple d amount invoice_number) with
  | some e =>
    .error ("Failed to save invoice ".toList ++ invoice_number ++ ": ".toList ++ e)
  | none =>
    .ok ({ st with
            entries := upsert st.entries (fileTriple d amount invoice_number) content },
          get_file_path st d amount invoice_number)

/-- One Filing Engine operation (the state-mutating surface used by the
orchestrator). -/
inductive FMOp where
  | save (content : List Nat) (d : Date) (amount invoice_number : List Char)

/-- The (date, amount, invoice_number) triple of an operation. -/
def opTriple : FMOp → Date × List Char × List Char
  | .save _ d a n => (d, a, n)

/-- Run one operation; a raised FileError leaves the state unchanged. -/
def applyOp (st : FMState) : FMOp → FMState
  | .save c d a n =>
    match save_invoice st c d a n with
    | .ok (st', _) => st'
    | .error _ => st

/-- Run a history of operations. -/
def runOps (st : FMState) (ops : List FMOp) : FMState := ops.foldl applyOp st

/-- Fresh FileManager over an empty base directory. -/
def initState (base : List Char)
    (writeErr : List Char × List Char × List Char → Option (List Char)) : FMState :=
  ⟨base, [], writeErr⟩

/-- Operation whose date satisfies the `datetime` invariant (a Python
`datetime` value cannot hold an out-of-range date). -/
def opValid : FMOp → Prop
  | .save _ d _ _ => isValidDate d.year d.month d.day = true

instance (op : FMOp) : Decidable (opValid op) :=
  match op with
  | .save _ d _ _ =>
    (inferInstance : Decidable (isValidDate d.year d.month d.day = true))

/-- The storage location written by an operation. -/
def opStorageTriple : FMOp → List Char × List Char × List Char
  | .save _ d a n => fileTriple d a n

/-- A stored file of the shape produced by `save_invoice`. -/
def SavedShape (e : FileEntry) : Prop :=
  ∃ d a n, isValidDate d.year d.month d.day = true ∧
    e.yearDir = natToDigits d.year ∧
    e.monthDir = padZeros 2 (natToDigits d.month) ∧
    e.fname = generate_filename d a n

/-! ### Filing Engine: listing (FileManager.list_existing_invoices) -/

/-- Chronological order on dates, as comparison of Python `datetime` values:
lexicographic on (year, month, day). -/
def dateLe (a b : Date) : Prop :=
  a.year < b.year ∨ (a.year = b.year ∧
    (a.month < b.month ∨ (a.month = b.month ∧ a.day ≤ b.day)))

instance : DecidableRel dateLe := fun a b => by unfold dateLe; infer_instance

/-- Sort key of `sorted(invoices, key=lambda x: x[1]["date"])`. -/
def invLe (x y : List Char × ParsedInvoice) : Prop := dateLe x.2.date y.2.date

instance : DecidableRel invLe := fun a b => by unfold invLe; infer_instance

instance : IsTotal Date dateLe :=
  ⟨by intro a b; unfold dateLe; omega⟩

instance : IsTrans Date dateLe :=
  ⟨by intro a b c; unfold dateLe; omega⟩

instance : IsTotal (List Char × ParsedInvoice) invLe :=
  ⟨fun a b => IsTotal.total (r := dateLe) a.2.date b.2.date⟩

instance : IsTrans (List Char × ParsedInvoice) invLe :=
  ⟨fun _ _ _ h h' => IsTrans.trans (r := dateLe) _ _ _ h h'⟩

/-- Month-directory scan of one stored file: glob `*.pdf` then parse; an
unparsable or non-matching file is skipped. -/
def parseEntry (st : FMState) (e : FileEntry) : Option (List Char × ParsedInvoice) :=
  if ".pdf".toList.isSuffixOf e.fname then
    (parse_filename e.fname).map
      (fun p => (st.base ++ '/' :: e.yearDir ++ '/' :: e.monthDir ++ '/' :: e.fname, p))
  else none

/-- Year directories scanned when no (truthy) year filter is given:
`d.is_dir() and d.name.isdigit()`. -/
def allDigitDirs (es : List FileEntry) : List FileEntry :=
  es.filter (fun e => !e.yearDir.isEmpty && e.yearDir.all Char.isDigit)

/-- Year directories selected by FileManager.list_existing_invoices.
`if year:` is Python truthiness, so a `None` or `0` filter scans every
digit-named year directory while a nonzero filter scans exactly
`base / str(year)` (vacuously empty when absent).  The final
`sorted(..., key=lambda x: x[1]["date"])` is modelled by insertion sort on the
same key: directory enumeration order is OS-dependent, so only sortedness,
membership and counts are preserved properties. -/
def searchDirs (st : FMState) (year : Option Nat) : List FileEntry :=
  match year with
  | some y =>
    if y = 0 then allDigitDirs st.entries
    else st.entries.filter (fun e => e.yearDir == natToDigits y)
  | none => allDigitDirs st.entries

/-- FileManager.list_existing_invoices: parse the files of the selected year
directories, then sort by date. -/
def list_existing_invoices (st : FMState) (year : Option Nat) :
    List (List Char × ParsedInvoice) :=
  List.insertionSort invLe ((searchDirs st year).filterMap (parseEntry st))

/-! ### Order Extraction Engine (client.py)

The browser-facing side of `InvoiceClient` is abstracted as data: for each
ordered selector list of `_extract_order_data`, an `OrderElem` records what the
successive selectors would yield on that order element (a hit that raised, for
example a stale element, is simply absent, exactly as the per-selector
`except: continue` produces).  Dates are points on an abstract integer
timeline; `_parse_date` delegates to the external `dateutil` parser, so only
its per-selector results (`None` for an unparsable text) are recorded. -/

/-- One order element of the orders page, through the eyes of the four
selector lists of `_extract_order_data`. -/
structure OrderElem where
  numTexts : List (List Char)
  dateCands : List (Option Int)
  totalTexts : List (List Char)
  hrefCands : List (Option (List Char))
deriving DecidableEq, Repr

/-- The order dictionary built by `_extract_order_data`: a `none` field is an
absent key; the date key, when present, can hold `None` (inner `none`) when
every date text failed to parse. -/
structure OrderDict where
  order_number : Option (List Char)
  date : Option (Option Int)
  total : Option (List Char)
  invoice_url : Option (Option (List Char))
deriving DecidableEq, Repr

/-- Matcher for `\d{3}-\d{7}-\d{7}` at the start of the text, returning the
captured group. -/
def shapeAt (l : List Char) : Option (List Char) :=
  match splitDigits 3 l with
  | some (a, '-' :: r) =>
    match splitDigits 7 r with
    | some (b, '-' :: r2) =>
      match splitDigits 7 r2 with
      | some (c, _) => some (a ++ '-' :: b ++ '-' :: c)
      | none => none
    | _ => none
  | _ => none

/-- Matcher for `#?\s*(\d{3}-\d{7}-\d{7})` anchored at the current position.
`#?` must consume a leading `#` when present (a `#` is no digit), and the
greedy `\s*` must consume the whole whitespace run (whitespace is no digit),
so the match is deterministic. -/
def matchOrderAt (l : List Char) : Option (List Char) :=
  shapeAt ((match l with | '#' :: r => r | _ => l).dropWhile Char.isWhitespace)

/-- Python `re.search(r"#?\s*(\d{3}-\d{7}-\d{7})", text).group(1)`: first
position (left to right) where the pattern matches. -/
def searchOrderNum : List Char → Option (List Char)
  | [] => none
  | c :: cs =>
    match matchOrderAt (c :: cs) with
    | some g => some g
    | none => searchOrderNum cs

/-- Matcher for `(\d+\.?\d*)` at the current position: one or more digits,
optionally a period, then any further digits (all greedy; nothing follows, so
no backtracking occurs). -/
def matchNumAt (l : List Char) : Option (List Char) :=
  let ds := l.takeWhile Char.isDigit
  if ds.isEmpty then none
  else
    match l.drop ds.length with
    | '.' :: r2 => some (ds ++ '.' :: r2.takeWhile Char.isDigit)
    | _ => some ds

/-- Matcher for `\$?(\d+\.?\d*)` at the current position (a `$` is no digit,
so the optional `\$?` must consume a leading dollar sign when present). -/
def matchTotalAt (l : List Char) : Option (List Char) :=
  match l with
  | '$' :: r => matchNumAt r
  | _ => matchNumAt l

/-- Python `re.search(r"\$?(\d+\.?\d*)", text).group(1)`. -/
def searchTotal : List Char → Option (List Char)
  | [] => none
  | c :: cs =>
    match matchTotalAt (c :: cs) with
    | some g => some g
    | none => searchTotal cs

/-- Date-selector loop of `_extract_order_data`: each found text is assigned to
the date key (overwriting), breaking at the first truthy (non-None) parse.  The
key stays absent only when no selector found an element at all. -/
def extractDateField (cands : List (Option Int)) : Option (Option Int) :=
  match cands.findSome? id with
  | some t => some (some t)
  | none => if cands.isEmpty then none else some none

/-- InvoiceClient._extract_order_data: run the four independent selector
loops, then return the dictionary only when both the order number and the date
key are present. -/
def extractOrderData (e : OrderElem) : Option OrderDict :=
  let od : OrderDict :=
    { order_number := e.numTexts.findSome? searchOrderNum
      date := extractDateField e.dateCands
      total := e.totalTexts.findSome? searchTotal
      invoice_url := e.hrefCands.head? }
  if od.order_number.isSome && od.date.isSome then some od else none

/-- Python `datetime.min` (0001-01-01) on the abstract day timeline with epoch
1970-01-01.  The branch using it is unreachable from `_extract_order_data`
(the date key is always present there), so the exact value is immaterial. -/
def datetimeMin : Int := -719162

/-- Body of the per-order loop of `get_recent_orders`: the record is kept when
the dictionary is non-empty and its date is at least the cutoff; comparing a
`None` date with the cutoff raises a TypeError, which the per-order
`except ... continue` converts into a skip. -/
def processOrder (cutoff : Int) (e : OrderElem) : Option OrderDict :=
  match extractOrderData e with
  | none => none
  | some od =>
    match od.date with
    | some (some t) => if cutoff ≤ t then some od else none
    | some none => none
    | none => if cutoff ≤ datetimeMin then some od else none

/-- The per-order loop of `get_recent_orders`, in page order. -/
def ordersLoop (cutoff : Int) : List OrderElem → List OrderDict
  | [] => []
  | e :: es =>
    match processOrder cutoff e with
    | some od => od :: ordersLoop cutoff es
    | none => ordersLoop cutoff es

/-- InvoiceClient.get_recent_orders on an already-enumerated list of order
elements: `cutoff_date = datetime.now() - timedelta(days=days)`, then filter. -/
def get_recent_orders (now days : Int) (elems : List OrderElem) : List OrderDict :=
  ordersLoop (now - days) elems

/-- An order number of the exact shape `\d{3}-\d{7}-\d{7}` and nothing more. -/
def isOrderShape (g : List Char) : Bool := shapeAt g == some g

/-! ### Download fallback (InvoiceClient.download_invoice) -/

/-- The world as `download_invoice` sees it: `fetch` is the HTTP GET (`none`
models a transport error or non-2xx status, both raised as RequestException by
`raise_for_status`), and `resolve` is the selenium fallback page rendering
(the first PDF reference found by the ordered selector list, if any). -/
structure WebEnv where
  fetch : List Char → Option (List Char × List Char)
  resolve : List Char → Option (List Char)

/-- Python `pat in s` substring containment. -/
def containsSub (pat : List Char) : List Char → Bool
  | [] => pat.isEmpty
  | c :: cs => List.isPrefixOf pat (c :: cs) || containsSub pat cs

/-- Content-type check `"pdf" not in content_type.lower()`. -/
def contentTypeHasPdf (ct : List Char) : Bool :=
  containsSub "pdf".toList (ct.map Char.toLower)

/-- URL check `invoice_url.endswith(".pdf")`. -/
def urlEndsPdf (u : List Char) : Bool := ".pdf".toList.isSuffixOf u

/-- Outcome of a download call: the PDF bytes, or a raised NetworkError. -/
inductive DownloadResult where
  | success (body : List Char)
  | failure
deriving DecidableEq, Repr

/-- The mutual recursion `download_invoice → _download_with_selenium →
download_invoice`, indexed by fuel; `none` marks fuel exhaustion, so a result
independent of any fuel bound witnesses non-termination of the source
recursion. -/
def download_invoice_fuel (w : WebEnv) : Nat → List Char → Option DownloadResult
  | 0, _ => none
  | fuel+1, url =>
    match w.fetch url with
    | none => some .failure
    | some (contentType, body) =>
      if !contentTypeHasPdf contentType && !urlEndsPdf url then
        match w.resolve url with
        | some next => download_invoice_fuel w fuel next
        | none => some .failure
      else some (.success body)

/-- A world where every fetch answers with an HTML page and the rendered page
resolves its PDF selector back to the same locator (for example an
`iframe[src*='pdf']` whose src is the page itself): the second fallback
trigger recurses instead of failing. -/
def cyclicWeb : WebEnv :=
  ⟨fun _ => some ("text/html".toList, "page".toList), fun u => some u⟩

/-! ### Lemmas: decimal digits, padding -/

theorem natDigitsFuel_congr : ∀ f1 f2 n, n < f1 → n < f2 →
    natDigitsFuel f1 n = natDigitsFuel f2 n := by
  intro f1
  induction f1 with
  | zero => intro f2 n h; omega
  | succ f ih =>
    intro f2 n h1 h2
    match f2, h2 with
    | f2'+1, _ =>
      simp only [natDigitsFuel]
      by_cases h10 : n < 10
      · simp [h10]
      · simp only [h10, if_false]
        rw [ih f2' (n / 10) (by omega) (by omega)]

theorem fromDigits_foldl_shift : ∀ (l : List Char) (x : Nat),
    l.foldl (fun acc c => acc * 10 + (c.toNat - 48)) x =
      x * 10 ^ l.length + fromDigits l := by
  intro l
  induction l with
  | nil => intro x; simp [fromDigits]
  | cons c cs ih =>
    intro x
    simp only [List.foldl_cons, List.length_cons, fromDigits]
    rw [ih (x * 10 + (c.toNat - 48)), ih (0 * 10 + (c.toNat - 48))]
    ring

theorem fromDigits_append (a b : List Char) :
    fromDigits (a ++ b) = fromDigits a * 10 ^ b.length + fromDigits b := by
  unfold fromDigits
  rw [List.foldl_append, fromDigits_foldl_shift]
  rfl

theorem digitChar_toNat {n : Nat} (h : n < 10) : (Nat.digitChar n).toNat - 48 = n := by
  interval_cases n <;> rfl

theorem digitChar_isDigit {n : Nat} (h : n < 10) : (Nat.digitChar n).isDigit = true := by
  interval_cases n <;> decide

theorem fromDigits_natDigitsFuel : ∀ fuel n, n < fuel →
    fromDigits (natDigitsFuel fuel n) = n := by
  intro fuel
  induction fuel with
  | zero => intro n h; omega
  | succ f ih =>
    intro n h
    simp only [natDigitsFuel]
    by_cases h10 : n < 10
    · simp only [h10, if_true]
      simp [fromDigits, digitChar_toNat h10]
    · simp only [h10, if_false]
      rw [fromDigits_append, ih (n / 10) (by omega)]
      have : fromDigits [Nat.digitChar (n % 10)] = n % 10 := by
        simp [fromDigits, digitChar_toNat (Nat.mod_lt n (by omega))]
      simp only [List.length_cons, List.length_nil, this]
      omega

theorem fromDigits_natToDigits (n : Nat) : fromDigits (natToDigits n) = n :=
  fromDigits_natDigitsFuel (n + 1) n (Nat.lt_succ_self n)

theorem natToDigits_injective {a b : Nat} (h : natToDigits a = natToDigits b) :
    a = b := by
  have := fromDigits_natToDigits a
  rw [h, fromDigits_natToDigits] at this
  omega

theorem natDigitsFuel_ne_nil : ∀ fuel n, n < fuel → natDigitsFuel fuel n ≠ [] := by
  intro fuel
  induction fuel with
  | zero => intro n h; omega
  | succ f _ =>
    intro n _
    simp only [natDigitsFuel]
    by_cases h10 : n < 10 <;> simp [h10]

theorem natToDigits_ne_nil (n : Nat) : natToDigits n ≠ [] :=
  natDigitsFuel_ne_nil (n + 1) n (Nat.lt_succ_self n)

theorem natDigitsFuel_all_digit : ∀ fuel n, n < fuel →
    ∀ c ∈ natDigitsFuel fuel n, c.isDigit = true := by
  intro fuel
  induction fuel with
  | zero => intro n h; omega
  | succ f ih =>
    intro n h c hc
    simp only [natDigitsFuel] at hc
    by_cases h10 : n < 10
    · simp [h10] at hc
      subst hc; exact digitChar_isDigit h10
    · simp only [h10, if_false, List.mem_append, List.mem_singleton] at hc
      rcases hc with hc | hc
      · exact ih (n / 10) (by omega) c hc
      · subst hc; exact digitChar_isDigit (Nat.mod_lt n (by omega))

theorem natToDigits_all_digit (n : Nat) : ∀ c ∈ natToDigits n, c.isDigit = true :=
  natDigitsFuel_all_digit (n + 1) n (Nat.lt_succ_self n)

theorem natDigitsFuel_length_le : ∀ fuel n k, n < fuel → n < 10 ^ k → 1 ≤ k →
    (natDigitsFuel fuel n).length ≤ k := by
  intro fuel
  induction fuel with
  | zero => intro n k h; omega
  | succ f ih =>
    intro n k h hk h1
    simp only [natDigitsFuel]
    by_cases h10 : n < 10
    · simp [h10]; omega
    · simp only [h10, if_false, List.length_append, List.length_cons,
        List.length_nil]
      have hk2 : 2 ≤ k := by
        by_contra hlt
        have : k = 1 := by omega
        subst this
        simp at hk
        omega
      have hdiv : n / 10 < 10 ^ (k - 1) := by
        have h1010 : 0 < (10:Nat) := by omega
        rw [Nat.div_lt_iff_lt_mul h1010]
        have : (10:Nat) ^ (k - 1) * 10 = 10 ^ k := by
          rw [mul_comm, ← pow_succ']
          congr 1
          omega
        omega
      have := ih (n / 10) (k - 1) (by omega) hdiv (by omega)
      omega

theorem natToDigits_length_le {n k : Nat} (hk : n < 10 ^ k) (h1 : 1 ≤ k) :
    (natToDigits n).length ≤ k :=
  natDigitsFuel_length_le (n + 1) n k (Nat.lt_succ_self n) hk h1

theorem fromDigits_replicate_zero (k : Nat) (l : List Char) :
    fromDigits (List.replicate k '0' ++ l) = fromDigits l := by
  induction k with
  | zero => simp
  | succ k ih =>
    simp only [List.replicate_succ, List.cons_append]
    show fromDigits ('0' :: (List.replicate k '0' ++ l)) = fromDigits l
    unfold fromDigits
    simp only [List.foldl_cons]
    have : (0 : Nat) * 10 + ('0'.toNat - 48) = 0 := by decide
    rw [this]
    exact ih

theorem fromDigits_padZeros (w : Nat) (l : List Char) :
    fromDigits (padZeros w l) = fromDigits l :=
  fromDigits_replicate_zero _ l

theorem padZeros_length {w : Nat} {l : List Char} (h : l.length ≤ w) :
    (padZeros w l).length = w := by
  simp [padZeros]
  omega

theorem padZeros_all_digit {w : Nat} {l : List Char}
    (h : ∀ c ∈ l, c.isDigit = true) : ∀ c ∈ padZeros w l, c.isDigit = true := by
  intro c hc
  simp only [padZeros, List.mem_append, List.mem_replicate] at hc
  rcases hc with ⟨_, rfl⟩ | hc
  · decide
  · exact h c hc

/-- Padded year block: length 4, all digits, value preserved. -/
theorem pad4_spec {y : Nat} (h : y ≤ 9999) :
    (padZeros 4 (natToDigits y)).length = 4 ∧
      (∀ c ∈ padZeros 4 (natToDigits y), c.isDigit = true) ∧
      fromDigits (padZeros 4 (natToDigits y)) = y := by
  refine ⟨padZeros_length (natToDigits_length_le (by norm_num; omega) (by omega)),
    padZeros_all_digit (natToDigits_all_digit y), ?_⟩
  rw [fromDigits_padZeros, fromDigits_natToDigits]

/-- Padded month/day block: length 2, all digits, value preserved. -/
theorem pad2_spec {m : Nat} (h : m ≤ 99) :
    (padZeros 2 (natToDigits m)).length = 2 ∧
      (∀ c ∈ padZeros 2 (natToDigits m), c.isDigit = true) ∧
      fromDigits (padZeros 2 (natToDigits m)) = m := by
  refine ⟨padZeros_length (natToDigits_length_le (by norm_num; omega) (by omega)),
    padZeros_all_digit (natToDigits_all_digit m), ?_⟩
  rw [fromDigits_padZeros, fromDigits_natToDigits]

/-! ### Lemmas: splitDigits -/

theorem splitDigits_eq_some : ∀ (k : Nat) (l a r : List Char),
    splitDigits k l = some (a, r) →
      l = a ++ r ∧ a.length = k ∧ ∀ c ∈ a, c.isDigit = true := by
  intro k
  induction k with
  | zero =>
    intro l a r h
    simp [splitDigits] at h
    obtain ⟨rfl, rfl⟩ := h
    simp
  | succ k ih =>
    intro l a r h
    match l with
    | [] => simp [splitDigits] at h
    | c :: l' =>
      simp only [splitDigits] at h
      by_cases hd : c.isDigit
      · simp only [hd, if_true, Option.map_eq_some'] at h
        obtain ⟨⟨a', r'⟩, hsome, heq⟩ := h
        cases heq
        obtain ⟨hl, hlen, hdig⟩ := ih l' a' r' hsome
        subst hl
        refine ⟨by simp, by simp [hlen], ?_⟩
        intro x hx
        rcases List.mem_cons.mp hx with rfl | hx
        · exact hd
        · exact hdig x hx
      · simp [hd] at h

theorem splitDigits_append : ∀ (a r : List Char), (∀ c ∈ a, c.isDigit = true) →
    splitDigits a.length (a ++ r) = some (a, r) := by
  intro a
  induction a with
  | nil => intro r _; simp [splitDigits]
  | cons c a' ih =>
    intro r h
    have hc : c.isDigit = true := h c (List.mem_cons_self c a')
    simp only [List.length_cons, List.cons_append, splitDigits, hc, if_true]
    simp only [List.append_eq]
    rw [ih r (fun x hx => h x (List.mem_cons_of_mem c hx))]
    rfl

/-! ### Lemmas: takeWhile / dropWhile over appends -/

theorem takeWhile_append_all {p : Char → Bool} : ∀ (xs ys : List Char),
    (∀ x ∈ xs, p x = true) → (xs ++ ys).takeWhile p = xs ++ ys.takeWhile p := by
  intro xs
  induction xs with
  | nil => intro ys _; simp
  | cons x xs ih =>
    intro ys h
    have hx : p x = true := h x (List.mem_cons_self x xs)
    simp only [List.cons_append, List.takeWhile_cons_of_pos hx]
    rw [ih ys (fun a ha => h a (List.mem_cons_of_mem x ha))]

theorem dropWhile_append_all {p : Char → Bool} : ∀ (xs ys : List Char),
    (∀ x ∈ xs, p x = true) → (xs ++ ys).dropWhile p = ys.dropWhile p := by
  intro xs
  induction xs with
  | nil => intro ys _; simp
  | cons x xs ih =>
    intro ys h
    have hx : p x = true := h x (List.mem_cons_self x xs)
    simp only [List.cons_append, List.dropWhile_cons_of_pos hx]
    exact ih ys (fun a ha => h a (List.mem_cons_of_mem x ha))

theorem mem_takeWhile_pred {p : Char → Bool} : ∀ (l : List Char),
    ∀ x ∈ l.takeWhile p, p x = true := by
  intro l
  induction l with
  | nil => simp
  | cons c cs ih =>
    intro x hx
    by_cases hc : p c
    · rw [List.takeWhile_cons_of_pos hc] at hx
      rcases List.mem_cons.mp hx with rfl | hx
      · exact hc
      · exact ih x hx
    · rw [List.takeWhile_cons_of_neg hc] at hx
      simp at hx

/-! ### Lemmas: matchCore -/

/-- Computation of the matcher on input of exactly the generated shape. -/
theorem matchCore_structured {ys ms ds amt rest : List Char}
    (hy : ys.length = 4) (hyd : ∀ c ∈ ys, c.isDigit = true)
    (hm : ms.length = 2) (hmd : ∀ c ∈ ms, c.isDigit = true)
    (hd : ds.length = 2) (hdd : ∀ c ∈ ds, c.isDigit = true)
    (hamt : amt ≠ []) (hah : '-' ∉ amt) :
    matchCore (ys ++ ('-' :: (ms ++ ('-' :: (ds ++ ('-' :: '-' :: (amt ++ ('-' :: '-' :: rest)))))))) =
      some (ys, ms, ds, amt, rest) := by
  have h4 : splitDigits 4 (ys ++ ('-' :: (ms ++ ('-' :: (ds ++ ('-' :: '-' :: (amt ++ ('-' :: '-' :: rest)))))))) =
      some (ys, '-' :: (ms ++ ('-' :: (ds ++ ('-' :: '-' :: (amt ++ ('-' :: '-' :: rest))))))) := by
    rw [← hy]; exact splitDigits_append ys _ hyd
  have h2m : splitDigits 2 (ms ++ ('-' :: (ds ++ ('-' :: '-' :: (amt ++ ('-' :: '-' :: rest)))))) =
      some (ms, '-' :: (ds ++ ('-' :: '-' :: (amt ++ ('-' :: '-' :: rest))))) := by
    rw [← hm]; exact splitDigits_append ms _ hmd
  have h2d : splitDigits 2 (ds ++ ('-' :: '-' :: (amt ++ ('-' :: '-' :: rest)))) =
      some (ds, '-' :: '-' :: (amt ++ ('-' :: '-' :: rest))) := by
    rw [← hd]; exact splitDigits_append ds _ hdd
  have hall : ∀ c ∈ amt, (c != '-') = true := by
    intro c hc
    have : c ≠ '-' := fun h => hah (h ▸ hc)
    simpa using this
  have htw : (amt ++ ('-' :: '-' :: rest)).takeWhile (fun c => c != '-') = amt := by
    rw [takeWhile_append_all amt _ hall]
    simp [List.takeWhile_cons_of_neg]
  have hdw : (amt ++ ('-' :: '-' :: rest)).dropWhile (fun c => c != '-') = '-' :: '-' :: rest := by
    rw [dropWhile_append_all amt _ hall]
    simp [List.dropWhile_cons_of_neg]
  have hne : amt.isEmpty = false := by
    cases amt with
    | nil => exact absurd rfl hamt
    | cons a l => rfl
  simp only [matchCore, h4, h2m, h2d, htw, hdw, hne, Bool.false_eq_true, if_false]

/-- Computation of the matcher when the amount segment is empty: the generated
string continues with the invoice separator right after the date separator, so
`[^-]+` fails. -/
theorem matchCore_empty_amount {ys ms ds rest : List Char}
    (hy : ys.length = 4) (hyd : ∀ c ∈ ys, c.isDigit = true)
    (hm : ms.length = 2) (hmd : ∀ c ∈ ms, c.isDigit = true)
    (hd : ds.length = 2) (hdd : ∀ c ∈ ds, c.isDigit = true) :
    matchCore (ys ++ ('-' :: (ms ++ ('-' :: (ds ++ ('-' :: '-' :: '-' :: rest)))))) = none := by
  have h4 : splitDigits 4 (ys ++ ('-' :: (ms ++ ('-' :: (ds ++ ('-' :: '-' :: '-' :: rest)))))) =
      some (ys, '-' :: (ms ++ ('-' :: (ds ++ ('-' :: '-' :: '-' :: rest))))) := by
    rw [← hy]; exact splitDigits_append ys _ hyd
  have h2m : splitDigits 2 (ms ++ ('-' :: (ds ++ ('-' :: '-' :: '-' :: rest)))) =
      some (ms, '-' :: (ds ++ ('-' :: '-' :: '-' :: rest))) := by
    rw [← hm]; exact splitDigits_append ms _ hmd
  have h2d : splitDigits 2 (ds ++ ('-' :: '-' :: '-' :: rest)) =
      some (ds, '-' :: '-' :: '-' :: rest) := by
    rw [← hd]; exact splitDigits_append ds _ hdd
  simp only [matchCore, h4, h2m, h2d]
  simp [List.takeWhile_cons_of_neg]

/-- Inversion of the matcher: a successful match decomposes the input. -/
theorem matchCore_inv {l ys ms ds amt tail : List Char}
    (h : matchCore l = some (ys, ms, ds, amt, tail)) :
    l = ys ++ ('-' :: (ms ++ ('-' :: (ds ++ ('-' :: '-' :: (amt ++ ('-' :: '-' :: tail))))))) ∧
      ys.length = 4 ∧ ms.length = 2 ∧ ds.length = 2 ∧
      (∀ c ∈ ys, c.isDigit = true) ∧ (∀ c ∈ ms, c.isDigit = true) ∧
      (∀ c ∈ ds, c.isDigit = true) ∧ amt ≠ [] ∧ '-' ∉ amt := by
  unfold matchCore at h
  split at h
  case _ ys' r1 heq4 =>
    split at h
    case _ ms' r2 heq2 =>
      split at h
      case _ ds' r3 heqd =>
        by_cases hemp : (r3.takeWhile (fun c => c != '-')).isEmpty
        · simp [hemp] at h
        · simp only [hemp, Bool.false_eq_true, if_false] at h
          split at h
          case _ t heqdw =>
            cases h
            obtain ⟨hl4, hlen4, hdig4⟩ := splitDigits_eq_some 4 l ys _ heq4
            obtain ⟨hl2, hlen2, hdig2⟩ := splitDigits_eq_some 2 _ ms _ heq2
            obtain ⟨hld, hlend, hdigd⟩ := splitDigits_eq_some 2 _ ds _ heqd
            have hr3 : r3 = (r3.takeWhile (fun c => c != '-')) ++ ('-' :: '-' :: tail) := by
              conv_lhs => rw [← List.takeWhile_append_dropWhile (fun c => c != '-') r3]
              rw [heqdw]
            have hmem : '-' ∉ r3.takeWhile (fun c => c != '-') := by
              intro hmm
              have := mem_takeWhile_pred (p := fun c => c != '-') r3 '-' hmm
              simp at this
            have hamt : r3.takeWhile (fun c => c != '-') ≠ [] := by
              intro hn
              rw [hn] at hemp
              simp at hemp
            refine ⟨?_, hlen4, hlen2, hlend, hdig4, hdig2, hdigd, hamt, hmem⟩
            conv_lhs => rw [hl4, hl2, hld, hr3]
          case _ hne => exact absurd h (by simp)
      case _ hne => exact absurd h (by simp)
    case _ hne => exact absurd h (by simp)
  case _ hne => exact absurd h (by simp)

/-! ### Lemmas: stripPdf -/

theorem stripPdfFuel_congr : ∀ f1 f2 (l : List Char), l.length ≤ f1 → l.length ≤ f2 →
    stripPdfFuel f1 l = stripPdfFuel f2 l := by
  intro f1
  induction f1 with
  | zero =>
    intro f2 l h1 _
    have : l = [] := List.length_eq_zero.mp (by omega)
    subst this
    cases f2 <;> rfl
  | succ f ih =>
    intro f2 l h1 h2
    cases l with
    | nil => cases f2 <;> rfl
    | cons c cs =>
      cases f2 with
      | zero => simp at h2
      | succ f2' =>
        have hf : cs.length ≤ f := by simp at h1; omega
        have hf' : cs.length ≤ f2' := by simp at h2; omega
        have hd : (cs.drop 3).length ≤ f := by rw [List.length_drop]; omega
        have hd' : (cs.drop 3).length ≤ f2' := by rw [List.length_drop]; omega
        simp only [stripPdfFuel]
        by_cases hc : c = '.' ∧ cs.take 3 = ['p', 'd', 'f']
        · simp only [hc, if_true]
          exact ih f2' (cs.drop 3) hd hd'
        · simp only [hc, if_false]
          rw [ih f2' cs hf hf']

theorem stripPdf_cons (c : Char) (cs : List Char) :
    stripPdf (c :: cs) =
      if c = '.' ∧ cs.take 3 = ['p', 'd', 'f'] then stripPdf (cs.drop 3)
      else c :: stripPdf cs := by
  show (if c = '.' ∧ cs.take 3 = ['p', 'd', 'f'] then stripPdfFuel cs.length (cs.drop 3)
        else c :: stripPdfFuel cs.length cs) =
      if c = '.' ∧ cs.take 3 = ['p', 'd', 'f'] then stripPdf (cs.drop 3)
      else c :: stripPdf cs
  by_cases hc : c = '.' ∧ cs.take 3 = ['p', 'd', 'f']
  · rw [if_pos hc, if_pos hc]
    exact stripPdfFuel_congr _ _ _ (by rw [List.length_drop]; omega) (le_refl _)
  · rw [if_neg hc, if_neg hc]
    rfl

theorem stripPdf_nil : stripPdf [] = [] := rfl

/-- Deleting `.pdf` occurrences from a string where `p` never occurs after a
possible final dot cannot fire before `S`: `stripPdf` distributes. -/
theorem stripPdf_append_left : ∀ (P S : List Char), 'p' ∉ P →
    P.getLast? ≠ some '.' → stripPdf (P ++ S) = P ++ stripPdf S := by
  intro P
  induction P with
  | nil => intro S _ _; simp
  | cons c cs ih =>
    intro S hp hl
    rw [List.cons_append, stripPdf_cons]
    have hcond : ¬(c = '.' ∧ (cs ++ S).take 3 = ['p', 'd', 'f']) := by
      rintro ⟨rfl, htake⟩
      cases cs with
      | nil => simp at hl
      | cons c2 cs2 =>
        have : c2 = 'p' := by
          simp only [List.cons_append, List.take_succ_cons] at htake
          exact (List.cons.injEq .. ▸ htake).1
        exact hp (by simp [this])
    have hl' : cs.getLast? ≠ some '.' := by
      cases cs with
      | nil => simp
      | cons c2 cs2 =>
        rw [List.getLast?_cons_cons] at hl
        exact hl
    simp only [hcond, if_false]
    rw [ih S (fun hmem => hp (List.mem_cons_of_mem c hmem)) hl']
    rfl

/-- Deleting `.pdf` occurrences from a string that has none leaves it as is. -/
theorem stripPdf_of_not_contains : ∀ (l : List Char),
    containsSub ".pdf".toList l = false → stripPdf l = l := by
  intro l
  induction l with
  | nil => intro _; rfl
  | cons c cs ih =>
    intro h
    rw [stripPdf_cons]
    have hsub : containsSub ".pdf".toList cs = false := by
      simp only [containsSub, Bool.or_eq_false_iff] at h
      exact h.2
    have hcond : ¬(c = '.' ∧ cs.take 3 = ['p', 'd', 'f']) := by
      rintro ⟨rfl, htake⟩
      have hcs : cs = ['p', 'd', 'f'] ++ cs.drop 3 := by
        conv_lhs => rw [← List.take_append_drop 3 cs]
        rw [htake]
      have hpre : List.isPrefixOf ".pdf".toList ('.' :: cs) = true := by
        rw [List.isPrefixOf_iff_prefix]
        refine ⟨cs.drop 3, ?_⟩
        conv_rhs => rw [hcs]
        rfl
      simp only [containsSub, Bool.or_eq_false_iff] at h
      rw [h.1] at hpre
      exact Bool.false_ne_true hpre
    simp only [hcond, if_false]
    rw [ih hsub]

/-! ### Lemmas: generation and parsing round trip -/

theorem daysInMonth_le_31 (y m : Nat) : daysInMonth y m ≤ 31 := by
  unfold daysInMonth
  split
  · split <;> omega
  · split <;> omega

/-! ### Lemmas: contains, dotPlusEnd, sanitization -/

theorem contains_iff_mem {a : Char} {l : List Char} : l.contains a = true ↔ a ∈ l := by
  simp [List.contains]

theorem contains_eq_false_iff {a : Char} {l : List Char} :
    l.contains a = false ↔ a ∉ l := by
  rw [← contains_iff_mem]
  cases l.contains a <;> simp

theorem dotPlusEnd_no_newline {rest : List Char} (h : '\n' ∉ rest) (hne : rest ≠ []) :
    dotPlusEnd rest = some rest := by
  cases rest with
  | nil => exact absurd rfl hne
  | cons c cs =>
    unfold dotPlusEnd
    rw [contains_eq_false_iff.mpr h]
    rfl

theorem dotPlusEnd_isSome_iff {rest : List Char} :
    (dotPlusEnd rest).isSome = true ↔
      (rest ≠ [] ∧ '\n' ∉ rest) ∨
        ∃ s, rest = s ++ ['\n'] ∧ s ≠ [] ∧ '\n' ∉ s := by
  by_cases hc : '\n' ∈ rest
  · have hcc : rest.contains '\n' = true := contains_iff_mem.mpr hc
    unfold dotPlusEnd
    rw [hcc]
    simp only [if_true]
    constructor
    · intro h
      by_cases hcond : (rest.getLast? == some '\n' && !rest.dropLast.contains '\n'
          && !rest.dropLast.isEmpty) = true
      · obtain ⟨⟨h1, h2⟩, h3⟩ := by
          have := hcond
          rw [Bool.and_eq_true, Bool.and_eq_true] at this
          exact this
        have hlast : rest.getLast? = some '\n' := by
          exact eq_of_beq h1
        refine Or.inr ⟨rest.dropLast, ?_, ?_, ?_⟩
        · exact (List.dropLast_append_getLast? '\n' hlast).symm
        · rw [Bool.not_eq_eq_eq_not, Bool.not_true] at h3
          exact (List.isEmpty_eq_false.mp h3)
        · rw [Bool.not_eq_eq_eq_not, Bool.not_true] at h2
          exact contains_eq_false_iff.mp h2
      · rw [Bool.not_eq_true] at hcond
        rw [hcond] at h
        simp at h
    · rintro (⟨_, hnm⟩ | ⟨s, rfl, hs, hns⟩)
      · exact absurd hc hnm
      · have h1 : ((s ++ ['\n']).getLast? == some '\n') = true := by
          rw [List.getLast?_concat]
          exact beq_self_eq_true _
        have h2 : (!(s ++ ['\n']).dropLast.contains '\n') = true := by
          rw [List.dropLast_concat, contains_eq_false_iff.mpr hns]
          rfl
        have h3 : (!(s ++ ['\n']).dropLast.isEmpty) = true := by
          rw [List.dropLast_concat]
          cases s with
          | nil => exact absurd rfl hs
          | cons x xs => rfl
        rw [h1, h2, h3]
        rfl
  · have hcc : rest.contains '\n' = false := contains_eq_false_iff.mpr hc
    unfold dotPlusEnd
    rw [hcc]
    simp only [Bool.false_eq_true, if_false]
    constructor
    · intro h
      left
      refine ⟨?_, hc⟩
      by_cases he : rest.isEmpty
      · rw [if_pos he] at h
        simp at h
      · exact fun hn => he (by rw [hn]; rfl)
    · rintro (⟨hne, _⟩ | ⟨s, rfl, _, _⟩)
      · rw [if_neg (fun he => hne (List.isEmpty_iff.mp he))]
        rfl
      · exact absurd (by simp : '\n' ∈ s ++ ['\n']) hc

theorem mem_sanitizeAmount {c : Char} {s : List Char} (h : c ∈ sanitizeAmount s) :
    (c.isDigit || c == '.') = true :=
  (List.mem_filter.mp h).2

theorem mem_sanitizeInvoice {c : Char} {s : List Char} (h : c ∈ sanitizeInvoice s) :
    (isWordChar c || c == '-' || c == '.') = true :=
  (List.mem_filter.mp h).2

theorem hyphen_not_mem_sanitizeAmount (s : List Char) : '-' ∉ sanitizeAmount s := by
  intro h
  have := mem_sanitizeAmount h
  simp at this

theorem newline_not_mem_sanitizeAmount (s : List Char) : '\n' ∉ sanitizeAmount s := by
  intro h
  have := mem_sanitizeAmount h
  simp at this

theorem p_not_mem_sanitizeAmount (s : List Char) : 'p' ∉ sanitizeAmount s := by
  intro h
  have := mem_sanitizeAmount h
  simp at this

theorem newline_not_mem_sanitizeInvoice (s : List Char) : '\n' ∉ sanitizeInvoice s := by
  intro h
  have := mem_sanitizeInvoice h
  simp [isWordChar] at this

/-- Appending the extension to a string free of `.pdf` occurrences and then
stripping recovers the string: the scan can only fire on the final `.pdf`
(no occurrence can straddle the boundary, as the window would need a `p`
where the extension has `.`, `d`, or `f`). -/
theorem stripPdf_append_pdf : ∀ (l : List Char),
    containsSub ".pdf".toList l = false → stripPdf (l ++ ".pdf".toList) = l := by
  intro l
  induction l with
  | nil => intro _; rfl
  | cons c cs ih =>
    intro h
    rw [List.cons_append, stripPdf_cons]
    have hsub : containsSub ".pdf".toList cs = false := by
      simp only [containsSub, Bool.or_eq_false_iff] at h
      exact h.2
    have hcond : ¬(c = '.' ∧ (cs ++ ".pdf".toList).take 3 = ['p', 'd', 'f']) := by
      rintro ⟨rfl, htake⟩
      match cs, htake with
      | [], htake => simp at htake
      | [x], htake => simp at htake
      | [x, y], htake => simp at htake
      | x :: y :: z :: cs', htake =>
        simp only [List.cons_append, List.take_succ_cons, List.take_zero] at htake
        have hx : x = 'p' := (List.cons.injEq .. ▸ htake).1
        have hy : y = 'd' :=
          (List.cons.injEq .. ▸ (List.cons.injEq .. ▸ htake).2).1
        have hz : z = 'f' :=
          (List.cons.injEq .. ▸ (List.cons.injEq .. ▸ (List.cons.injEq .. ▸ htake).2).2).1
        have hpre : List.isPrefixOf ".pdf".toList ('.' :: x :: y :: z :: cs') = true := by
          rw [List.isPrefixOf_iff_prefix, hx, hy, hz]
          exact ⟨cs', rfl⟩
        simp only [containsSub, Bool.or_eq_false_iff] at h
        rw [h.1] at hpre
        exact Bool.false_ne_true hpre
    simp only [hcond, if_false]
    rw [ih hsub]

/-- The generated filename as a prefix block (through the invoice separator)
followed by the sanitized invoice number and the extension. -/
theorem generate_filename_decomp (d : Date) (a n : List Char) :
    generate_filename d a n =
      (padZeros 4 (natToDigits d.year) ++ ('-' :: (padZeros 2 (natToDigits d.month) ++
        ('-' :: (padZeros 2 (natToDigits d.day) ++
          ('-' :: '-' :: (sanitizeAmount a ++ ['-', '-'])))))))
        ++ (sanitizeInvoice n ++ ".pdf".toList) := by
  simp [generate_filename, List.append_assoc]

theorem p_not_mem_prefix_block (d : Date) (a : List Char) :
    'p' ∉ padZeros 4 (natToDigits d.year) ++ ('-' :: (padZeros 2 (natToDigits d.month) ++
        ('-' :: (padZeros 2 (natToDigits d.day) ++
          ('-' :: '-' :: (sanitizeAmount a ++ ['-', '-'])))))) := by
  intro h
  rcases List.mem_append.mp h with h1 | h2
  · exact absurd (padZeros_all_digit (natToDigits_all_digit d.year) 'p' h1) (by decide)
  · rcases List.mem_cons.mp h2 with he | h3
    · exact absurd he (by decide)
    · rcases List.mem_append.mp h3 with h4 | h5
      · exact absurd (padZeros_all_digit (natToDigits_all_digit d.month) 'p' h4) (by decide)
      · rcases List.mem_cons.mp h5 with he | h6
        · exact absurd he (by decide)
        · rcases List.mem_append.mp h6 with h7 | h8
          · exact absurd (padZeros_all_digit (natToDigits_all_digit d.day) 'p' h7) (by decide)
          · rcases List.mem_cons.mp h8 with he | h9
            · exact absurd he (by decide)
            · rcases List.mem_cons.mp h9 with he | h10
              · exact absurd he (by decide)
              · rcases List.mem_append.mp h10 with h11 | h12
                · exact p_not_mem_sanitizeAmount a h11
                · simp at h12

theorem getLast_prefix_block (d : Date) (a : List Char) :
    (padZeros 4 (natToDigits d.year) ++ ('-' :: (padZeros 2 (natToDigits d.month) ++
        ('-' :: (padZeros 2 (natToDigits d.day) ++
          ('-' :: '-' :: (sanitizeAmount a ++ ['-', '-']))))))).getLast? = some '-' := by
  have heq : padZeros 4 (natToDigits d.year) ++ ('-' :: (padZeros 2 (natToDigits d.month) ++
        ('-' :: (padZeros 2 (natToDigits d.day) ++
          ('-' :: '-' :: (sanitizeAmount a ++ ['-', '-'])))))) =
      (padZeros 4 (natToDigits d.year) ++ ('-' :: (padZeros 2 (natToDigits d.month) ++
        ('-' :: (padZeros 2 (natToDigits d.day) ++
          ('-' :: '-' :: (sanitizeAmount a ++ ['-']))))))) ++ ['-'] := by
    simp [List.append_assoc]
  rw [heq, List.getLast?_concat]

/-- Stripping `.pdf` occurrences from a generated filename leaves the prefix
block untouched (it contains no `p` and ends in a hyphen) and acts only on the
invoice-number-plus-extension part. -/
theorem stripPdf_generate (d : Date) (a n : List Char) :
    stripPdf (generate_filename d a n) =
      padZeros 4 (natToDigits d.year) ++ ('-' :: (padZeros 2 (natToDigits d.month) ++
        ('-' :: (padZeros 2 (natToDigits d.day) ++
          ('-' :: '-' :: (sanitizeAmount a ++
            ('-' :: '-' :: stripPdf (sanitizeInvoice n ++ ".pdf".toList)))))))) := by
  rw [generate_filename_decomp,
    stripPdf_append_left _ _ (p_not_mem_prefix_block d a)
      (by rw [getLast_prefix_block]; simp)]
  simp [List.append_assoc]

/-- Round trip of the Filing Engine filename functions, under the conditions
actually needed by the code: the sanitized amount and invoice number are
nonempty and the sanitized invoice number contains no `.pdf` substring (the
parser deletes every `.pdf` occurrence, not only the extension). -/
theorem parse_generate_roundtrip (d : Date) (a n : List Char)
    (hv : isValidDate d.year d.month d.day = true)
    (ha : sanitizeAmount a ≠ [])
    (hn : sanitizeInvoice n ≠ [])
    (hpdf : containsSub ".pdf".toList (sanitizeInvoice n) = false) :
    parse_filename (generate_filename d a n) =
      some ⟨d, sanitizeAmount a, sanitizeInvoice n⟩ := by
  have hv' : 1 ≤ d.year ∧ d.year ≤ 9999 ∧ 1 ≤ d.month ∧ d.month ≤ 12 ∧
      1 ≤ d.day ∧ d.day ≤ daysInMonth d.year d.month := by
    have := hv
    unfold isValidDate at this
    rwa [decide_eq_true_eq] at this
  obtain ⟨hy1, hy2, hy3⟩ := pad4_spec (y := d.year) hv'.2.1
  obtain ⟨hm1, hm2, hm3⟩ := pad2_spec (m := d.month) (by omega)
  obtain ⟨hd1, hd2, hd3⟩ := pad2_spec (m := d.day)
    (by have := daysInMonth_le_31 d.year d.month; omega)
  unfold parse_filename
  rw [stripPdf_generate, stripPdf_append_pdf _ hpdf,
    matchCore_structured hy1 hy2 hm1 hm2 hd1 hd2 ha (hyphen_not_mem_sanitizeAmount a)]
  simp only [dotPlusEnd_no_newline (newline_not_mem_sanitizeInvoice n) hn,
    hy3, hm3, hd3, hv, if_true]

/-- On a generated filename, a successful parse always reads back the very
date that generated it, whatever the amount and invoice number were. -/
theorem parse_generate_date (d : Date) (a n : List Char) (r : ParsedInvoice)
    (hv : isValidDate d.year d.month d.day = true)
    (h : parse_filename (generate_filename d a n) = some r) :
    r.date = ⟨d.year, d.month, d.day⟩ := by
  have hv' : 1 ≤ d.year ∧ d.year ≤ 9999 ∧ 1 ≤ d.month ∧ d.month ≤ 12 ∧
      1 ≤ d.day ∧ d.day ≤ daysInMonth d.year d.month := by
    have := hv
    unfold isValidDate at this
    rwa [decide_eq_true_eq] at this
  obtain ⟨hy1, hy2, hy3⟩ := pad4_spec (y := d.year) hv'.2.1
  obtain ⟨hm1, hm2, hm3⟩ := pad2_spec (m := d.month) (by omega)
  obtain ⟨hd1, hd2, hd3⟩ := pad2_spec (m := d.day)
    (by have := daysInMonth_le_31 d.year d.month; omega)
  by_cases ha : sanitizeAmount a = []
  · exfalso
    simp only [parse_filename, stripPdf_generate, ha, List.nil_append] at h
    rw [matchCore_empty_amount hy1 hy2 hm1 hm2 hd1 hd2] at h
    simp at h
  · simp only [parse_filename, stripPdf_generate,
      matchCore_structured hy1 hy2 hm1 hm2 hd1 hd2 ha
        (hyphen_not_mem_sanitizeAmount a)] at h
    cases hdp : dotPlusEnd (stripPdf (sanitizeInvoice n ++ ".pdf".toList)) with
    | none => rw [hdp] at h; simp at h
    | some inv =>
      rw [hdp] at h
      rw [hy3, hm3, hd3, hv] at h
      have h' : some (⟨⟨d.year, d.month, d.day⟩, sanitizeAmount a, inv⟩ : ParsedInvoice)
          = some r := h
      cases h'
      rfl

/-! ### Lemmas: order-number shape and extraction -/

theorem splitDigits_whole (a : List Char) (h : ∀ c ∈ a, c.isDigit = true) :
    splitDigits a.length a = some (a, []) := by
  have := splitDigits_append a [] h
  rwa [List.append_nil] at this

theorem shapeAt_shape {l g : List Char} (h : shapeAt l = some g) :
    isOrderShape g = true := by
  unfold shapeAt at h
  split at h
  case _ a r heq3 =>
    split at h
    case _ b r2 heq7 =>
      split at h
      case _ c rest heq7' =>
        cases h
        obtain ⟨hl3, hlen3, hdig3⟩ := splitDigits_eq_some 3 l a _ heq3
        obtain ⟨hl7, hlen7, hdig7⟩ := splitDigits_eq_some 7 r b _ heq7
        obtain ⟨hl7', hlen7', hdig7'⟩ := splitDigits_eq_some 7 r2 c _ heq7'
        have hg : a ++ '-' :: b ++ '-' :: c = a ++ ('-' :: (b ++ ('-' :: c))) := by
          simp [List.append_assoc]
        have e1 : splitDigits 3 (a ++ ('-' :: (b ++ ('-' :: c)))) =
            some (a, '-' :: (b ++ ('-' :: c))) := by
          rw [show (3 : Nat) = a.length from hlen3.symm]
          exact splitDigits_append a _ hdig3
        have e2 : splitDigits 7 (b ++ ('-' :: c)) = some (b, '-' :: c) := by
          rw [show (7 : Nat) = b.length from hlen7.symm]
          exact splitDigits_append b _ hdig7
        have e3 : splitDigits 7 c = some (c, []) := by
          rw [show (7 : Nat) = c.length from hlen7'.symm]
          exact splitDigits_whole c hdig7'
        have hcomp : shapeAt (a ++ ('-' :: (b ++ ('-' :: c)))) =
            some (a ++ '-' :: b ++ '-' :: c) := by
          simp only [shapeAt, e1, e2, e3]
        unfold isOrderShape
        rw [hg, hcomp, hg]
        exact beq_self_eq_true _
      case _ => exact absurd h (by simp)
    case _ => exact absurd h (by simp)
  case _ => exact absurd h (by simp)

theorem searchOrderNum_shape : ∀ (t g : List Char), searchOrderNum t = some g →
    isOrderShape g = true := by
  intro t
  induction t with
  | nil => intro g h; exact absurd h (by simp [searchOrderNum])
  | cons c cs ih =>
    intro g h
    unfold searchOrderNum at h
    cases hma : matchOrderAt (c :: cs) with
    | some g' =>
      rw [hma] at h
      cases h
      exact shapeAt_shape hma
    | none =>
      rw [hma] at h
      exact ih g h

theorem extractOrderData_some {e : OrderElem} {od : OrderDict}
    (h : extractOrderData e = some od) :
    od.order_number = e.numTexts.findSome? searchOrderNum ∧
      od.date = extractDateField e.dateCands ∧
      od.order_number.isSome = true ∧ od.date.isSome = true := by
  unfold extractOrderData at h
  by_cases hc : ((e.numTexts.findSome? searchOrderNum).isSome &&
      (extractDateField e.dateCands).isSome) = true
  · rw [if_pos hc] at h
    cases h
    rw [Bool.and_eq_true] at hc
    exact ⟨rfl, rfl, hc.1, hc.2⟩
  · rw [if_neg hc] at h
    exact absurd h (by simp)

theorem processOrder_some {cutoff : Int} {e : OrderElem} {od : OrderDict}
    (h : processOrder cutoff e = some od) :
    extractOrderData e = some od ∧ ∃ t, od.date = some (some t) ∧ cutoff ≤ t := by
  unfold processOrder at h
  cases hex : extractOrderData e with
  | none => rw [hex] at h; exact absurd h (by simp)
  | some od0 =>
    rw [hex] at h
    have h' : (match od0.date with
        | some (some t) => if cutoff ≤ t then some od0 else none
        | some none => none
        | none => if cutoff ≤ datetimeMin then some od0 else none) = some od := h
    have hds : od0.date.isSome = true := (extractOrderData_some hex).2.2.2
    cases hdd : od0.date with
    | none => rw [hdd] at hds; exact absurd hds (by simp)
    | some dv =>
      cases dv with
      | none => rw [hdd] at h'; exact absurd h' (by simp)
      | some t =>
        rw [hdd] at h'
        have h'' : (if cutoff ≤ t then some od0 else none) = some od := h'
        by_cases hle : cutoff ≤ t
        · rw [if_pos hle] at h''
          have hod : od0 = od := Option.some.inj h''
          subst hod
          exact ⟨rfl, t, hdd, hle⟩
        · rw [if_neg hle] at h''
          exact absurd h'' (by simp)

theorem ordersLoop_append (c : Int) : ∀ (l1 l2 : List OrderElem),
    ordersLoop c (l1 ++ l2) = ordersLoop c l1 ++ ordersLoop c l2 := by
  intro l1
  induction l1 with
  | nil => intro l2; rfl
  | cons e es ih =>
    intro l2
    simp only [List.cons_append, ordersLoop]
    cases processOrder c e <;> simp [ih]

theorem ordersLoop_eq_filterMap (c : Int) : ∀ (es : List OrderElem),
    ordersLoop c es = es.filterMap (processOrder c) := by
  intro es
  induction es with
  | nil => rfl
  | cons e es ih =>
    simp only [ordersLoop, List.filterMap_cons]
    cases processOrder c e <;> simp [ih]

theorem mem_ordersLoop {c : Int} {es : List OrderElem} {od : OrderDict}
    (h : od ∈ ordersLoop c es) : ∃ e, e ∈ es ∧ processOrder c e = some od := by
  rw [ordersLoop_eq_filterMap] at h
  exact List.mem_filterMap.mp h

/-! ### Lemmas: filesystem state, save, exists, listing -/

theorem mem_upsert {e' : FileEntry} : ∀ (es : List FileEntry)
    (t : List Char × List Char × List Char) (c : List Nat),
    e' ∈ upsert es t c →
      (∃ e ∈ es, e'.yearDir = e.yearDir ∧ e'.monthDir = e.monthDir ∧
        e'.fname = e.fname) ∨
      (e'.yearDir = t.1 ∧ e'.monthDir = t.2.1 ∧ e'.fname = t.2.2) := by
  intro es
  induction es with
  | nil =>
    intro t c h
    simp only [upsert, List.mem_singleton] at h
    subst h
    exact Or.inr ⟨rfl, rfl, rfl⟩
  | cons e es ih =>
    intro t c h
    simp only [upsert] at h
    by_cases hc : (entryTriple e == t) = true
    · rw [if_pos hc] at h
      rcases List.mem_cons.mp h with rfl | hmem
      · exact Or.inl ⟨e, List.mem_cons_self e es, rfl, rfl, rfl⟩
      · exact Or.inl ⟨e', List.mem_cons_of_mem e hmem, rfl, rfl, rfl⟩
    · rw [if_neg hc] at h
      rcases List.mem_cons.mp h with rfl | hmem
      · exact Or.inl ⟨e', List.mem_cons_self e' es, rfl, rfl, rfl⟩
      · rcases ih t c hmem with ⟨e0, he0, hs⟩ | hnew
        · exact Or.inl ⟨e0, List.mem_cons_of_mem e he0, hs⟩
        · exact Or.inr hnew

theorem savedShape_runOps : ∀ (ops : List FMOp) (st : FMState),
    (∀ op ∈ ops, opValid op) → (∀ e ∈ st.entries, SavedShape e) →
    ∀ e ∈ (runOps st ops).entries, SavedShape e := by
  intro ops
  induction ops with
  | nil => intro st _ hst e he; exact hst e he
  | cons op ops ih =>
    intro st hops hst e he
    have hop : opValid op := hops op (List.mem_cons_self op ops)
    have hops' : ∀ o ∈ ops, opValid o := fun o ho => hops o (List.mem_cons_of_mem op ho)
    refine ih (applyOp st op) hops' ?_ e he
    intro e' he'
    cases op with
    | save c d a n =>
      cases hw : st.writeErr (fileTriple d a n) with
      | some msg =>
        have hsv : save_invoice st c d a n =
            Except.error ("Failed to save invoice ".toList ++ n ++ ": ".toList ++ msg) := by
          unfold save_invoice
          rw [hw]
        have happ : applyOp st (FMOp.save c d a n) = st := by
          show (match save_invoice st c d a n with
            | Except.ok (st', _) => st'
            | Except.error _ => st) = st
          rw [hsv]
        rw [happ] at he'
        exact hst e' he'
      | none =>
        have hsv : save_invoice st c d a n =
            Except.ok ({ st with entries := upsert st.entries (fileTriple d a n) c },
              get_file_path st d a n) := by
          unfold save_invoice
          rw [hw]
        have happ : applyOp st (FMOp.save c d a n) =
            { st with entries := upsert st.entries (fileTriple d a n) c } := by
          show (match save_invoice st c d a n with
            | Except.ok (st', _) => st'
            | Except.error _ => st) =
              { st with entries := upsert st.entries (fileTriple d a n) c }
          rw [hsv]
        rw [happ] at he'
        rcases mem_upsert st.entries (fileTriple d a n) c he' with ⟨e0, he0, h1, h2, h3⟩ | ⟨h1, h2, h3⟩
        · obtain ⟨d0, a0, n0, hv0, hy0, hm0, hf0⟩ := hst e0 he0
          exact ⟨d0, a0, n0, hv0, h1.trans hy0, h2.trans hm0, h3.trans hf0⟩
        · exact ⟨d, a, n, hop, h1, h2, h3⟩

theorem lookupEntry_upsert_self (es : List FileEntry)
    (t : List Char × List Char × List Char) (c : List Nat) :
    lookupEntry (upsert es t c) t = some c := by
  induction es with
  | nil =>
    simp only [upsert, lookupEntry, List.find?]
    have : entryTriple ⟨t.1, t.2.1, t.2.2, c⟩ = t := rfl
    rw [show (entryTriple ⟨t.1, t.2.1, t.2.2, c⟩ == t) = true from beq_iff_eq.mpr this]
    rfl
  | cons e es ih =>
    simp only [upsert]
    by_cases hc : (entryTriple e == t) = true
    · rw [if_pos hc]
      simp only [lookupEntry, List.find?]
      have : entryTriple { e with content := c } = entryTriple e := rfl
      rw [show (entryTriple { e with content := c } == t) = true from this ▸ hc]
      rfl
    · rw [if_neg hc]
      simp only [lookupEntry, List.find?] at ih ⊢
      rw [Bool.not_eq_true] at hc
      rw [hc]
      exact ih

theorem lookupEntry_upsert_ne (es : List FileEntry)
    (t t' : List Char × List Char × List Char) (c : List Nat) (h : t' ≠ t) :
    lookupEntry (upsert es t c) t' = lookupEntry es t' := by
  induction es with
  | nil =>
    simp only [upsert, lookupEntry, List.find?]
    have : (entryTriple ⟨t.1, t.2.1, t.2.2, c⟩ == t') = false := by
      rw [beq_eq_false_iff_ne]
      exact fun he => h (he ▸ rfl)
    rw [this]
  | cons e es ih =>
    simp only [upsert]
    by_cases hc : (entryTriple e == t) = true
    · rw [if_pos hc]
      have ht : entryTriple e = t := beq_iff_eq.mp hc
      have hx : (entryTriple { e with content := c } == t') = false := by
        have hsame : entryTriple { e with content := c } = entryTriple e := rfl
        rw [hsame, ht, beq_eq_false_iff_ne]
        exact fun he => h he.symm
      have hx2 : (entryTriple e == t') = false := by
        rw [ht, beq_eq_false_iff_ne]
        exact fun he => h he.symm
      simp only [lookupEntry, List.find?, hx, hx2]
    · rw [if_neg hc]
      simp only [lookupEntry, List.find?] at ih ⊢
      cases hx : (entryTriple e == t') with
      | true => rfl
      | false => exact ih

theorem parseEntry_date {st : FMState} {e : FileEntry} {pr : List Char × ParsedInvoice}
    (hs : SavedShape e) (hp : parseEntry st e = some pr) :
    ∃ d : Date, isValidDate d.year d.month d.day = true ∧
      e.yearDir = natToDigits d.year ∧ pr.2.date = ⟨d.year, d.month, d.day⟩ := by
  obtain ⟨d, a, n, hv, hy, hm, hf⟩ := hs
  refine ⟨d, hv, hy, ?_⟩
  unfold parseEntry at hp
  by_cases hsuf : (".pdf".toList.isSuffixOf e.fname) = true
  · rw [if_pos hsuf] at hp
    rw [Option.map_eq_some'] at hp
    obtain ⟨r, hr, hpr⟩ := hp
    rw [hf] at hr
    have := parse_generate_date d a n r hv hr
    rw [← hpr]
    exact this
  · rw [if_neg hsuf] at hp
    exact absurd hp (by simp)

theorem mem_list_existing {st : FMState} {year : Option Nat}
    {pr : List Char × ParsedInvoice} :
    pr ∈ list_existing_invoices st year ↔
      ∃ e, e ∈ searchDirs st year ∧ parseEntry st e = some pr := by
  unfold list_existing_invoices
  rw [List.mem_insertionSort]
  exact List.mem_filterMap

theorem digit_dir_cond {e : FileEntry} {y : Nat} (h : e.yearDir = natToDigits y) :
    (!e.yearDir.isEmpty && e.yearDir.all Char.isDigit) = true := by
  rw [Bool.and_eq_true]
  constructor
  · rw [h]
    cases hn : natToDigits y with
    | nil => exact absurd hn (natToDigits_ne_nil y)
    | cons c cs => rfl
  · rw [h, List.all_eq_true]
    intro c hc
    exact natToDigits_all_digit y c hc

theorem list_year_filter_mem (st : FMState)
    (hsh : ∀ e ∈ st.entries, SavedShape e) (y : Nat) (hy : y ≠ 0)
    (pr : List Char × ParsedInvoice) :
    pr ∈ list_existing_invoices st (some y) ↔
      pr ∈ list_existing_invoices st none ∧ pr.2.date.year = y := by
  rw [mem_list_existing, mem_list_existing]
  constructor
  · rintro ⟨e, he, hp⟩
    have he' : e ∈ st.entries ∧ (e.yearDir == natToDigits y) = true := by
      have hsd : searchDirs st (some y) =
          st.entries.filter (fun e => e.yearDir == natToDigits y) := by
        show (if y = 0 then allDigitDirs st.entries
          else st.entries.filter (fun e => e.yearDir == natToDigits y)) =
            st.entries.filter (fun e => e.yearDir == natToDigits y)
        rw [if_neg hy]
      rw [hsd] at he
      exact List.mem_filter.mp he
    obtain ⟨hee, hyy⟩ := he'
    obtain ⟨d, hv, hyd, hdate⟩ := parseEntry_date (hsh e hee) hp
    have hdy : d.year = y :=
      natToDigits_injective (hyd.symm.trans (beq_iff_eq.mp hyy))
    refine ⟨⟨e, ?_, hp⟩, ?_⟩
    · show e ∈ allDigitDirs st.entries
      unfold allDigitDirs
      rw [List.mem_filter]
      exact ⟨hee, digit_dir_cond hyd⟩
    · rw [hdate]
      exact hdy
  · rintro ⟨⟨e, he, hp⟩, hyear⟩
    have hee : e ∈ st.entries := by
      have : e ∈ allDigitDirs st.entries := he
      unfold allDigitDirs at this
      exact (List.mem_filter.mp this).1
    obtain ⟨d, hv, hyd, hdate⟩ := parseEntry_date (hsh e hee) hp
    refine ⟨e, ?_, hp⟩
    show e ∈ (if y = 0 then allDigitDirs st.entries
      else st.entries.filter (fun e => e.yearDir == natToDigits y))
    rw [if_neg hy, List.mem_filter]
    refine ⟨hee, ?_⟩
    rw [hyd, beq_iff_eq]
    have : pr.2.date.year = d.year := by rw [hdate]
    rw [← hyear, this]

theorem list_sorted (st : FMState) (year : Option Nat) :
    List.Sorted invLe (list_existing_invoices st year) :=
  List.sorted_insertionSort invLe _

theorem list_year_absent (st : FMState) (y : Nat) (hy : y ≠ 0)
    (h : ∀ e ∈ st.entries, e.yearDir ≠ natToDigits y) :
    list_existing_invoices st (some y) = [] := by
  have hsd : searchDirs st (some y) =
      st.entries.filter (fun e => e.yearDir == natToDigits y) := by
    show (if y = 0 then allDigitDirs st.entries
      else st.entries.filter (fun e => e.yearDir == natToDigits y)) =
        st.entries.filter (fun e => e.yearDir == natToDigits y)
    rw [if_neg hy]
  have hf : st.entries.filter (fun e => e.yearDir == natToDigits y) = [] :=
    List.filter_eq_nil_iff.mpr (fun e he hp => h e he (beq_iff_eq.mp hp))
  unfold list_existing_invoices
  rw [hsd, hf]
  rfl

theorem sum_map_zero : ∀ (ys : List Nat), (ys.map (fun _ => (0 : Nat))).sum = 0 := by
  intro ys
  induction ys with
  | nil => rfl
  | cons y tl ih => simp [ih]

theorem sum_map_bump : ∀ (ys : List Nat), ys.Nodup → ∀ y0, y0 ∈ ys →
    ∀ (F G : Nat → Nat) (k : Nat), (∀ y ∈ ys, y ≠ y0 → F y = G y) →
    F y0 = k + G y0 → (ys.map F).sum = k + (ys.map G).sum := by
  intro ys
  induction ys with
  | nil => intro _ y0 h; exact absurd h (by simp)
  | cons y tl ih =>
    intro hnd y0 hy0 F G k hFG hF0
    have hnd' := List.nodup_cons.mp hnd
    rcases List.mem_cons.mp hy0 with rfl | hmem
    · have htl : tl.map F = tl.map G := by
        apply List.map_congr_left
        intro x hx
        exact hFG x (List.mem_cons_of_mem _ hx) (fun he => hnd'.1 (he ▸ hx))
      simp only [List.map_cons, List.sum_cons, htl, hF0]
      omega
    · have hy : F y = G y :=
        hFG y (List.mem_cons_self y tl) (fun he => hnd'.1 (he ▸ hmem))
      have := ih hnd'.2 y0 hmem F G k
        (fun x hx hne => hFG x (List.mem_cons_of_mem _ hx) hne) hF0
      simp only [List.map_cons, List.sum_cons, hy, this]
      omega

theorem length_filterMap_cons {α β : Type} (f : α → Option β) (e : α) (es : List α) :
    (List.filterMap f (e :: es)).length =
      (if (f e).isSome then 1 else 0) + (List.filterMap f es).length := by
  cases hfe : f e with
  | none => simp [List.filterMap_cons, hfe]
  | some v =>
    simp [List.filterMap_cons, hfe]
    omega

theorem count_partition (st : FMState) (ys : List Nat) (hnd : ys.Nodup) :
    ∀ (es : List FileEntry), (∀ e ∈ es, ∃ y ∈ ys, e.yearDir = natToDigits y) →
    (es.filterMap (parseEntry st)).length =
      (ys.map (fun y =>
        ((es.filter (fun e => e.yearDir == natToDigits y)).filterMap
          (parseEntry st)).length)).sum := by
  intro es
  induction es with
  | nil =>
    intro _
    rw [show (ys.map (fun y =>
        ((List.filter (fun e => e.yearDir == natToDigits y) []).filterMap
          (parseEntry st)).length)) = ys.map (fun _ => 0) from
      List.map_congr_left (fun y _ => rfl)]
    rw [sum_map_zero]
    rfl
  | cons e es ih =>
    intro hcov
    obtain ⟨y0, hy0, hey0⟩ := hcov e (List.mem_cons_self e es)
    have hcov' : ∀ x ∈ es, ∃ y ∈ ys, x.yearDir = natToDigits y :=
      fun x hx => hcov x (List.mem_cons_of_mem e hx)
    rw [length_filterMap_cons, ih hcov']
    refine (sum_map_bump ys hnd y0 hy0 _ _ _ ?_ ?_).symm
    · intro y hyin hne
      have hcond : (e.yearDir == natToDigits y) = false := by
        rw [hey0, beq_eq_false_iff_ne]
        intro he
        exact hne (natToDigits_injective he).symm
      rw [List.filter_cons, hcond]
      simp only [Bool.false_eq_true, if_false]
    · have hcond : (e.yearDir == natToDigits y0) = true := by
        rw [hey0]
        exact beq_self_eq_true _
      rw [List.filter_cons, hcond]
      simp only [if_true]
      rw [length_filterMap_cons]

/-! ### Lemmas: remaining helpers for the claims -/

theorem findSome?_eq_some_mem {α β : Type} {l : List α} {f : α → Option β} {b : β}
    (w : l.findSome? f = some b) : ∃ a, a ∈ l ∧ f a = some b := by
  induction l with
  | nil => simp [List.findSome?] at w
  | cons x xs ih =>
    rw [List.findSome?_cons] at w
    cases hfx : f x with
    | some v =>
      rw [hfx] at w
      cases w
      exact ⟨x, List.mem_cons_self x xs, hfx⟩
    | none =>
      rw [hfx] at w
      obtain ⟨a, ha, hfa⟩ := ih w
      exact ⟨a, List.mem_cons_of_mem x ha, hfa⟩

theorem containsSub_here (pat post : List Char) :
    containsSub pat (pat ++ post) = true := by
  cases hl : pat ++ post with
  | nil =>
    have hp : pat = [] := (List.append_eq_nil.mp hl).1
    rw [hp]
    rfl
  | cons c cs =>
    simp only [containsSub]
    have hpre : List.isPrefixOf pat (c :: cs) = true := by
      rw [List.isPrefixOf_iff_prefix]
      exact ⟨post, hl⟩
    rw [hpre, Bool.true_or]

theorem containsSub_pre : ∀ (pre pat post : List Char),
    containsSub pat (pre ++ (pat ++ post)) = true := by
  intro pre
  induction pre with
  | nil => intro pat post; exact containsSub_here pat post
  | cons c cs ih =>
    intro pat post
    show containsSub pat (c :: (cs ++ (pat ++ post))) = true
    simp only [containsSub]
    rw [ih pat post, Bool.or_true]

theorem lookup_runOps_untouched : ∀ (ops : List FMOp) (st : FMState)
    (t : List Char × List Char × List Char),
    (∀ op ∈ ops, opStorageTriple op ≠ t) →
    lookupEntry (runOps st ops).entries t = lookupEntry st.entries t := by
  intro ops
  induction ops with
  | nil => intro st t _; rfl
  | cons op ops ih =>
    intro st t hops
    have hop : opStorageTriple op ≠ t := hops op (List.mem_cons_self op ops)
    have hops' : ∀ o ∈ ops, opStorageTriple o ≠ t :=
      fun o ho => hops o (List.mem_cons_of_mem op ho)
    show lookupEntry (runOps (applyOp st op) ops).entries t = lookupEntry st.entries t
    rw [ih (applyOp st op) t hops']
    cases op with
    | save c d a n =>
      cases hw : st.writeErr (fileTriple d a n) with
      | some msg =>
        have happ : applyOp st (FMOp.save c d a n) = st := by
          show (match save_invoice st c d a n with
            | Except.ok (st', _) => st'
            | Except.error _ => st) = st
          have hsv : save_invoice st c d a n = Except.error
              ("Failed to save invoice ".toList ++ n ++ ": ".toList ++ msg) := by
            unfold save_invoice
            rw [hw]
          rw [hsv]
        rw [happ]
      | none =>
        have happ : applyOp st (FMOp.save c d a n) =
            { st with entries := upsert st.entries (fileTriple d a n) c } := by
          show (match save_invoice st c d a n with
            | Except.ok (st', _) => st'
            | Except.error _ => st) =
              { st with entries := upsert st.entries (fileTriple d a n) c }
          have hsv : save_invoice st c d a n = Except.ok
              ({ st with entries := upsert st.entries (fileTriple d a n) c },
                get_file_path st d a n) := by
            unfold save_invoice
            rw [hw]
          rw [hsv]
        rw [happ]
        exact lookupEntry_upsert_ne st.entries (fileTriple d a n) t c
          (fun he => hop he.symm)

/-! ### Claims -/

/-- C1 (counterexample): the round-trip law fails as stated.  With date
2024-03-15, amount "1" and invoice number "a.pdfb" — all three stable under
sanitization — `parse_filename (generate_filename ...)` yields invoice number
"ab", not "a.pdfb", because the parser deletes every `.pdf` occurrence.
Round trip also fails outright (None) for an empty sanitized amount or an
empty sanitized invoice number. -/
theorem C1_roundtrip_counterexample :
    sanitizeAmount "1".toList = "1".toList ∧
    sanitizeInvoice "a.pdfb".toList = "a.pdfb".toList ∧
    parse_filename (generate_filename ⟨2024, 3, 15⟩ "1".toList "a.pdfb".toList) =
      some ⟨⟨2024, 3, 15⟩, "1".toList, "ab".toList⟩ ∧
    "ab".toList ≠ "a.pdfb".toList ∧
    parse_filename (generate_filename ⟨2024, 3, 15⟩ "".toList "n".toList) = none ∧
    parse_filename (generate_filename ⟨2024, 3, 15⟩ "1".toList "".toList) = none := by
  decide

/-- C1 (amended): for every datetime-valid date and amount/invoice-number
strings whose sanitized forms are nonempty, with the sanitized invoice number
containing no `.pdf` substring, parse_filename (generate_filename d a n)
returns the record with date d, the sanitized amount and the sanitized
invoice number. -/
theorem C1_roundtrip (d : Date) (a n : List Char)
    (hv : isValidDate d.year d.month d.day = true)
    (ha : sanitizeAmount a ≠ [])
    (hn : sanitizeInvoice n ≠ [])
    (hpdf : containsSub ".pdf".toList (sanitizeInvoice n) = false) :
    parse_filename (generate_filename d a n) =
      some ⟨d, sanitizeAmount a, sanitizeInvoice n⟩ :=
  parse_generate_roundtrip d a n hv ha hn hpdf

/-- C1 witness: the round trip at 2024-03-15, "$249.99",
"123-4567890-1234567". -/
theorem C1_roundtrip_witness :
    parse_filename (generate_filename ⟨2024, 3, 15⟩ "$249.99".toList
        "123-4567890-1234567".toList) =
      some ⟨⟨2024, 3, 15⟩, "249.99".toList, "123-4567890-1234567".toList⟩ :=
  (C1_roundtrip ⟨2024, 3, 15⟩ "$249.99".toList "123-4567890-1234567".toList
    (by decide) (by decide) (by decide) (by decide)).trans (by decide)

/-- C2: generate_filename keeps exactly the digits and periods of the amount
and exactly the word characters, hyphens, underscores and periods of the
invoice number, and produces
`YYYY-MM-DD--<sanitized amount>--<sanitized invoice_number>.pdf` with the
year, month and day blocks zero-padded to widths 4, 2 and 2; in particular
`generate_filename 2024-03-15 "$249.99" "123-4567890-1234567"` is
`2024-03-15--249.99--123-4567890-1234567.pdf`. -/
theorem C2_generate_filename (d : Date) (a n : List Char)
    (hv : isValidDate d.year d.month d.day = true) :
    (∃ ys ms ds : List Char,
      generate_filename d a n =
        ys ++ ('-' :: (ms ++ ('-' :: (ds ++ ('-' :: '-' ::
          (a.filter (fun c => c.isDigit || c == '.') ++
            ('-' :: '-' :: (n.filter (fun c =>
                (c.isAlphanum || c == '_') || c == '-' || c == '.') ++
              ".pdf".toList)))))))) ∧
      ys.length = 4 ∧ ms.length = 2 ∧ ds.length = 2 ∧
      (∀ c ∈ ys ++ ms ++ ds, c.isDigit = true) ∧
      fromDigits ys = d.year ∧ fromDigits ms = d.month ∧ fromDigits ds = d.day) ∧
    generate_filename ⟨2024, 3, 15⟩ "$249.99".toList "123-4567890-1234567".toList =
      "2024-03-15--249.99--123-4567890-1234567.pdf".toList := by
  constructor
  · have hv' : 1 ≤ d.year ∧ d.year ≤ 9999 ∧ 1 ≤ d.month ∧ d.month ≤ 12 ∧
        1 ≤ d.day ∧ d.day ≤ daysInMonth d.year d.month := by
      have := hv
      unfold isValidDate at this
      rwa [decide_eq_true_eq] at this
    obtain ⟨hy1, hy2, hy3⟩ := pad4_spec (y := d.year) hv'.2.1
    obtain ⟨hm1, hm2, hm3⟩ := pad2_spec (m := d.month) (by omega)
    obtain ⟨hd1, hd2, hd3⟩ := pad2_spec (m := d.day)
      (by have := daysInMonth_le_31 d.year d.month; omega)
    refine ⟨padZeros 4 (natToDigits d.year), padZeros 2 (natToDigits d.month),
      padZeros 2 (natToDigits d.day), ?_, hy1, hm1, hd1, ?_, hy3, hm3, hd3⟩
    · simp [generate_filename, sanitizeAmount, sanitizeInvoice, isWordChar,
        List.append_assoc]
    · intro c hc
      rcases List.mem_append.mp hc with hc | hc
      · rcases List.mem_append.mp hc with hc | hc
        · exact hy2 c hc
        · exact hm2 c hc
      · exact hd2 c hc
  · decide

/-- C2 witness: the concrete example of the claim, obtained from the theorem
at date 2024-03-15. -/
theorem C2_generate_filename_witness :
    generate_filename ⟨2024, 3, 15⟩ "$249.99".toList "123-4567890-1234567".toList =
      "2024-03-15--249.99--123-4567890-1234567.pdf".toList :=
  (C2_generate_filename ⟨2024, 3, 15⟩ "$249.99".toList "123-4567890-1234567".toList
    (by decide)).2

/-- C3 (counterexample): the acceptance domain stated by the claim
(match against `^(\d{4})-(\d{2})-(\d{2})--([^-]+)--(.+)\.pdf$` plus calendar
validity) differs from the code in both directions, because the code first
deletes every `.pdf` occurrence: `2024-01-01--.pdf--a.pdf` matches the claimed
pattern yet parses to None, while `.pdf2024-01-01--1--a.pdf` fails the claimed
pattern yet parses to a record. -/
theorem C3_parse_domain_counterexample :
    parse_filename_spec_accepts "2024-01-01--.pdf--a.pdf".toList = true ∧
    parse_filename "2024-01-01--.pdf--a.pdf".toList = none ∧
    parse_filename_spec_accepts ".pdf2024-01-01--1--a.pdf".toList = false ∧
    parse_filename ".pdf2024-01-01--1--a.pdf".toList =
      some ⟨⟨2024, 1, 1⟩, "1".toList, "a".toList⟩ := by
  decide

/-- C3 (amended): parse_filename name returns a record exactly when name,
after deletion of every `.pdf` occurrence, decomposes as
`YYYY-MM-DD--<amount>--<tail>` with four/two/two digit blocks, a nonempty
hyphen-free amount, a tail accepted by `(.+)$` (nonempty and newline-free, or
a newline-free nonempty string followed by one final newline), and a valid
calendar date; in particular month 13, February 31 and
"invalid-filename.pdf" all yield None. -/
theorem C3_parse_characterization :
    (∀ name : List Char,
      (parse_filename name).isSome = true ↔
        ∃ ys ms ds amt rest : List Char,
          stripPdf name =
            ys ++ ('-' :: (ms ++ ('-' :: (ds ++
              ('-' :: '-' :: (amt ++ ('-' :: '-' :: rest))))))) ∧
          ys.length = 4 ∧ ms.length = 2 ∧ ds.length = 2 ∧
          (∀ c ∈ ys ++ ms ++ ds, c.isDigit = true) ∧
          amt ≠ [] ∧ '-' ∉ amt ∧
          ((rest ≠ [] ∧ '\n' ∉ rest) ∨
            ∃ s, rest = s ++ ['\n'] ∧ s ≠ [] ∧ '\n' ∉ s) ∧
          isValidDate (fromDigits ys) (fromDigits ms) (fromDigits ds) = true) ∧
    parse_filename "invalid-filename.pdf".toList = none ∧
    parse_filename "2024-13-01--1--a.pdf".toList = none ∧
    parse_filename "2024-02-31--1--a.pdf".toList = none := by
  refine ⟨?_, by decide, by decide, by decide⟩
  intro name
  constructor
  · intro h
    unfold parse_filename at h
    cases hmc : matchCore (stripPdf name) with
    | none => rw [hmc] at h; exact absurd h (by simp)
    | some groups =>
      obtain ⟨ys, ms, ds, amt, rest⟩ := groups
      rw [hmc] at h
      obtain ⟨heq, h4, h2, h2', hdy, hdm, hdd, hne, hnm⟩ := matchCore_inv hmc
      have h' : (match dotPlusEnd rest with
          | some inv =>
            if isValidDate (fromDigits ys) (fromDigits ms) (fromDigits ds)
            then some (⟨⟨fromDigits ys, fromDigits ms, fromDigits ds⟩, amt, inv⟩ :
              ParsedInvoice)
            else none
          | none => none).isSome = true := h
      cases hdp : dotPlusEnd rest with
      | none => rw [hdp] at h'; exact absurd h' (by simp)
      | some inv =>
        rw [hdp] at h'
        by_cases hval : isValidDate (fromDigits ys) (fromDigits ms) (fromDigits ds) = true
        · refine ⟨ys, ms, ds, amt, rest, heq, h4, h2, h2', ?_, hne, hnm, ?_, hval⟩
          · intro c hc
            rcases List.mem_append.mp hc with hc | hc
            · rcases List.mem_append.mp hc with hc | hc
              · exact hdy c hc
              · exact hdm c hc
            · exact hdd c hc
          · exact dotPlusEnd_isSome_iff.mp (by rw [hdp]; rfl)
        · rw [Bool.not_eq_true] at hval
          rw [hval] at h'
          exact absurd h' (by simp)
  · rintro ⟨ys, ms, ds, amt, rest, heq, h4, h2, h2', hdig, hne, hnm, hrest, hval⟩
    have hdy : ∀ c ∈ ys, c.isDigit = true :=
      fun c hc => hdig c (List.mem_append.mpr (Or.inl (List.mem_append.mpr (Or.inl hc))))
    have hdm : ∀ c ∈ ms, c.isDigit = true :=
      fun c hc => hdig c (List.mem_append.mpr (Or.inl (List.mem_append.mpr (Or.inr hc))))
    have hdd : ∀ c ∈ ds, c.isDigit = true :=
      fun c hc => hdig c (List.mem_append.mpr (Or.inr hc))
    have hdp : (dotPlusEnd rest).isSome = true := dotPlusEnd_isSome_iff.mpr hrest
    obtain ⟨inv, hinv⟩ := Option.isSome_iff_exists.mp hdp
    unfold parse_filename
    rw [heq, matchCore_structured h4 hdy h2 hdm h2' hdd hne hnm]
    simp [hinv, hval]

/-- C4: every record returned by get_recent_orders has its order number and
date populated, with the date at least `now - days`; an element yielding only
a total and an invoice locator (no order number text, no date selector hit)
contributes no record; and a fully extracted record dated before the cutoff
is excluded. -/
theorem C4_recent_orders_filter :
    (∀ (now days : Int) (es : List OrderElem) (od : OrderDict),
      od ∈ get_recent_orders now days es →
        od.order_number.isSome = true ∧
          ∃ t, od.date = some (some t) ∧ now - days ≤ t) ∧
    (∀ (now days : Int) (e : OrderElem), e.numTexts = [] → e.dateCands = [] →
      get_recent_orders now days [e] = []) ∧
    (∀ (now days : Int) (e : OrderElem) (od : OrderDict) (t : Int),
      extractOrderData e = some od → od.date = some (some t) → t < now - days →
      get_recent_orders now days [e] = []) := by
  refine ⟨?_, ?_, ?_⟩
  · intro now days es od h
    obtain ⟨e, _, hpo⟩ := mem_ordersLoop h
    obtain ⟨hex, t, hdt, hle⟩ := processOrder_some hpo
    exact ⟨(extractOrderData_some hex).2.2.1, t, hdt, hle⟩
  · intro now days e h1 h2
    have hex : extractOrderData e = none := by
      unfold extractOrderData
      rw [h1, h2]
      rfl
    have hpo : processOrder (now - days) e = none := by
      unfold processOrder
      rw [hex]
    show ordersLoop (now - days) [e] = []
    simp [ordersLoop, hpo]
  · intro now days e od t hex hdt hlt
    have hpo : processOrder (now - days) e = none := by
      unfold processOrder
      rw [hex]
      show (match od.date with
        | some (some t) => if now - days ≤ t then some od else none
        | some none => none
        | none => if now - days ≤ datetimeMin then some od else none) = none
      rw [hdt]
      show (if now - days ≤ t then some od else none) = none
      rw [if_neg (by omega)]
    show ordersLoop (now - days) [e] = []
    simp [ordersLoop, hpo]

/-- C4 witness: a populated in-window record is returned with both fields and
an in-window timestamp; an element with only a total text and an invoice href
yields nothing; a populated record twenty days before the window is dropped. -/
theorem C4_recent_orders_filter_witness :
    ((⟨some "111-2222222-3333333".toList, some (some 100), none, none⟩ :
        OrderDict).order_number.isSome = true ∧
      ∃ t, (⟨some "111-2222222-3333333".toList, some (some 100), none, none⟩ :
        OrderDict).date = some (some t) ∧ (100 : Int) - 20 ≤ t) ∧
    get_recent_orders 100 20 [⟨[], [], ["$5.99".toList], [some "http://x".toList]⟩] = [] ∧
    get_recent_orders 100 20
      [⟨["# 111-2222222-3333333".toList], [some 50], [], []⟩] = [] :=
  ⟨C4_recent_orders_filter.1 100 20
      [⟨["Order # 111-2222222-3333333".toList], [some 100], [], []⟩]
      ⟨some "111-2222222-3333333".toList, some (some 100), none, none⟩ (by decide),
    C4_recent_orders_filter.2.1 100 20 ⟨[], [], ["$5.99".toList], [some "http://x".toList]⟩
      rfl rfl,
    C4_recent_orders_filter.2.2 100 20 ⟨["# 111-2222222-3333333".toList], [some 50], [], []⟩
      ⟨some "111-2222222-3333333".toList, some (some 50), none, none⟩ 50
      (by decide) rfl (by omega)⟩

/-- C5: the per-order loop is a filterMap over the page's elements, and an
element whose processing raises (the only raising path: extraction returned a
dictionary whose date key holds None, so the cutoff comparison throws
TypeError, caught by the per-order handler) is skipped while every element
before and after it is still processed, in page order. -/
theorem C5_extraction_failure_isolation :
    (∀ (now days : Int) (es : List OrderElem),
      get_recent_orders now days es = es.filterMap (processOrder (now - days))) ∧
    (∀ (now days : Int) (es1 es2 : List OrderElem) (e : OrderElem) (od : OrderDict),
      extractOrderData e = some od → od.date = some none →
      get_recent_orders now days (es1 ++ e :: es2) =
        get_recent_orders now days es1 ++ get_recent_orders now days es2) := by
  refine ⟨fun now days es => ordersLoop_eq_filterMap _ es, ?_⟩
  intro now days es1 es2 e od hex hdn
  show ordersLoop (now - days) (es1 ++ e :: es2) =
    ordersLoop (now - days) es1 ++ ordersLoop (now - days) es2
  rw [show es1 ++ e :: es2 = es1 ++ ([e] ++ es2) by simp, ordersLoop_append,
    ordersLoop_append]
  have hpo : processOrder (now - days) e = none := by
    unfold processOrder
    rw [hex]
    show (match od.date with
      | some (some t) => if now - days ≤ t then some od else none
      | some none => none
      | none => if now - days ≤ datetimeMin then some od else none) = none
    rw [hdn]
  have hmid : ordersLoop (now - days) [e] = [] := by simp [ordersLoop, hpo]
  rw [hmid, List.nil_append]

/-- C5 witness: a middle element whose date texts all failed to parse (date
key present, value None) is skipped while the records around it survive. -/
theorem C5_extraction_failure_isolation_witness :
    get_recent_orders 100 20
      ([⟨["Order # 111-2222222-3333333".toList], [some 100], [], []⟩] ++
        ⟨["# 222-3333333-4444444".toList], [none], [], []⟩ ::
          [⟨["# 333-4444444-5555555".toList], [some 90], [], []⟩]) =
      get_recent_orders 100 20 [⟨["Order # 111-2222222-3333333".toList], [some 100], [], []⟩] ++
        get_recent_orders 100 20 [⟨["# 333-4444444-5555555".toList], [some 90], [], []⟩] :=
  C5_extraction_failure_isolation.2 100 20
    [⟨["Order # 111-2222222-3333333".toList], [some 100], [], []⟩]
    [⟨["# 333-4444444-5555555".toList], [some 90], [], []⟩]
    ⟨["# 222-3333333-4444444".toList], [none], [], []⟩
    ⟨some "222-3333333-4444444".toList, some none, none, none⟩
    (by decide) rfl

/-- C6: the code does not bound the fallback.  In a world where every response
is text/html and the rendered page's first PDF selector resolves back to the
same locator, the mutual recursion download_invoice → _download_with_selenium
→ download_invoice never produces a result, however much fuel it is given:
the second fallback trigger recurses again instead of failing, so the call
chain does not terminate (in CPython it dies on the interpreter recursion
limit, not by design).  The claim's required behavior — at most one fallback,
hard failure on a second trigger — is therefore violated. -/
theorem C6_download_fallback_unbounded :
    ∀ fuel, download_invoice_fuel cyclicWeb fuel "https://host/invoice".toList = none := by
  intro fuel
  induction fuel with
  | zero => rfl
  | succ f ih => exact ih

/-- C10: every order number in a returned record matches the exact shape
`\d{3}-\d{7}-\d{7}`: the extraction regex captures nothing else. -/
theorem C10_order_number_shape (now days : Int) (es : List OrderElem)
    (od : OrderDict) (h : od ∈ get_recent_orders now days es) :
    ∃ num, od.order_number = some num ∧ isOrderShape num = true := by
  obtain ⟨e, _, hpo⟩ := mem_ordersLoop h
  obtain ⟨hex, _⟩ := processOrder_some hpo
  obtain ⟨hon, _, hsome, _⟩ := extractOrderData_some hex
  cases hnum : od.order_number with
  | none => rw [hnum] at hsome; exact absurd hsome (by simp)
  | some num =>
    refine ⟨num, rfl, ?_⟩
    rw [hnum] at hon
    obtain ⟨t, _, hsn⟩ := findSome?_eq_some_mem hon.symm
    exact searchOrderNum_shape t num hsn

/-- C10 witness: the record scraped from "Order # 111-2222222-3333333" carries
an order number of the required shape. -/
theorem C10_order_number_shape_witness :
    ∃ num, (⟨some "111-2222222-3333333".toList, some (some 100), none, none⟩ :
      OrderDict).order_number = some num ∧ isOrderShape num = true :=
  C10_order_number_shape 100 20
    [⟨["Order # 111-2222222-3333333".toList], [some 100], [], []⟩]
    ⟨some "111-2222222-3333333".toList, some (some 100), none, none⟩ (by decide)

/-- C7: when the filesystem accepts the write, save_invoice stores the
content at the derived location — overwriting whatever was there, leaving
every other location unchanged — and returns the derived path; when the write
fails, it raises a FileError whose message contains the invoice number. -/
theorem C7_save_invoice (st : FMState) (content : List Nat) (d : Date)
    (a n : List Char) :
    (st.writeErr (fileTriple d a n) = none →
      save_invoice st content d a n =
        Except.ok ({ st with entries := upsert st.entries (fileTriple d a n) content },
          get_file_path st d a n) ∧
      lookupEntry (upsert st.entries (fileTriple d a n) content) (fileTriple d a n) =
        some content ∧
      ∀ t', t' ≠ fileTriple d a n →
        lookupEntry (upsert st.entries (fileTriple d a n) content) t' =
          lookupEntry st.entries t') ∧
    (∀ err, st.writeErr (fileTriple d a n) = some err →
      save_invoice st content d a n = Except.error
        ("Failed to save invoice ".toList ++ n ++ ": ".toList ++ err) ∧
      containsSub n
        ("Failed to save invoice ".toList ++ n ++ ": ".toList ++ err) = true) := by
  constructor
  · intro hw
    refine ⟨?_, lookupEntry_upsert_self st.entries (fileTriple d a n) content,
      fun t' ht' => lookupEntry_upsert_ne st.entries (fileTriple d a n) t' content ht'⟩
    unfold save_invoice
    rw [hw]
  · intro err hw
    refine ⟨?_, ?_⟩
    · unfold save_invoice
      rw [hw]
    · have hsplit : "Failed to save invoice ".toList ++ n ++ ": ".toList ++ err =
          "Failed to save invoice ".toList ++ (n ++ (": ".toList ++ err)) := by
        simp [List.append_assoc]
      rw [hsplit]
      exact containsSub_pre "Failed to save invoice ".toList n (": ".toList ++ err)

/-- C7 witness: a successful save into a fresh state and a failing save under
a disk-full oracle, both at 2024-01-02, amount "1", invoice number "n". -/
theorem C7_save_invoice_witness :
    (save_invoice (initState "inv".toList (fun _ => none)) [7] ⟨2024, 1, 2⟩
        "1".toList "n".toList =
      Except.ok ({ initState "inv".toList (fun _ => none) with
          entries := upsert [] (fileTriple ⟨2024, 1, 2⟩ "1".toList "n".toList) [7] },
        get_file_path (initState "inv".toList (fun _ => none)) ⟨2024, 1, 2⟩
          "1".toList "n".toList) ∧
      lookupEntry (upsert [] (fileTriple ⟨2024, 1, 2⟩ "1".toList "n".toList) [7])
        (fileTriple ⟨2024, 1, 2⟩ "1".toList "n".toList) = some [7] ∧
      ∀ t', t' ≠ fileTriple ⟨2024, 1, 2⟩ "1".toList "n".toList →
        lookupEntry (upsert [] (fileTriple ⟨2024, 1, 2⟩ "1".toList "n".toList) [7]) t' =
          lookupEntry [] t') ∧
    (save_invoice (initState "inv".toList (fun _ => some "disk full".toList)) [7]
        ⟨2024, 1, 2⟩ "1".toList "n".toList =
      Except.error ("Failed to save invoice ".toList ++ "n".toList ++ ": ".toList ++
        "disk full".toList) ∧
      containsSub "n".toList ("Failed to save invoice ".toList ++ "n".toList ++
        ": ".toList ++ "disk full".toList) = true) :=
  ⟨(C7_save_invoice (initState "inv".toList (fun _ => none)) [7] ⟨2024, 1, 2⟩
      "1".toList "n".toList).1 rfl,
    (C7_save_invoice (initState "inv".toList (fun _ => some "disk full".toList)) [7]
      ⟨2024, 1, 2⟩ "1".toList "n".toList).2 "disk full".toList rfl⟩

/-- C8 (counterexample): the claim fails as stated.  Saving with the triple
(2024-01-02, "$1", "n") — a different triple from (2024-01-02, "1", "n"),
since "$1" is not "1" — derives the very same storage location, so
file_exists (2024-01-02, "1", "n") is already true although no save_invoice
with that triple has ever run. -/
theorem C8_file_exists_counterexample :
    opStorageTriple (FMOp.save [7] ⟨2024, 1, 2⟩ "$1".toList "n".toList) =
      fileTriple ⟨2024, 1, 2⟩ "1".toList "n".toList ∧
    ((⟨2024, 1, 2⟩ : Date), "$1".toList, "n".toList) ≠
      ((⟨2024, 1, 2⟩ : Date), "1".toList, "n".toList) ∧
    file_exists (runOps (initState "inv".toList (fun _ => none))
        [FMOp.save [7] ⟨2024, 1, 2⟩ "$1".toList "n".toList])
      ⟨2024, 1, 2⟩ "1".toList "n".toList = true := by
  decide

/-- C8 (amended): file_exists is false before any save_invoice deriving the
same storage location (same date, same sanitized amount, same sanitized
invoice number) has run, and true immediately after a successful save_invoice
with the same triple. -/
theorem C8_file_exists (base : List Char)
    (we : List Char × List Char × List Char → Option (List Char)) (ops : List FMOp)
    (d : Date) (a n : List Char) :
    ((∀ op ∈ ops, opStorageTriple op ≠ fileTriple d a n) →
      file_exists (runOps (initState base we) ops) d a n = false) ∧
    (∀ (st st' : FMState) (p : List Char) (content : List Nat),
      save_invoice st content d a n = Except.ok (st', p) →
      file_exists st' d a n = true) := by
  constructor
  · intro hops
    unfold file_exists
    rw [lookup_runOps_untouched ops _ _ hops]
    rfl
  · intro st st' p content h
    unfold save_invoice at h
    cases hw : st.writeErr (fileTriple d a n) with
    | some err =>
      rw [hw] at h
      exact absurd h (by simp)
    | none =>
      rw [hw] at h
      cases h
      show (lookupEntry (upsert st.entries (fileTriple d a n) content)
        (fileTriple d a n)).isSome = true
      rw [lookupEntry_upsert_self]
      rfl

/-- C8 witness: a history saving a different location leaves the query
location nonexistent, and a fresh successful save makes it exist. -/
theorem C8_file_exists_witness :
    file_exists (runOps (initState "inv".toList (fun _ => none))
        [FMOp.save [7] ⟨2023, 5, 6⟩ "2".toList "m".toList])
      ⟨2024, 1, 2⟩ "1".toList "n".toList = false ∧
    ∃ st' p, save_invoice (initState "inv".toList (fun _ => none)) [7]
        ⟨2024, 1, 2⟩ "1".toList "n".toList = Except.ok (st', p) ∧
      file_exists st' ⟨2024, 1, 2⟩ "1".toList "n".toList = true :=
  ⟨(C8_file_exists "inv".toList (fun _ => none)
      [FMOp.save [7] ⟨2023, 5, 6⟩ "2".toList "m".toList]
      ⟨2024, 1, 2⟩ "1".toList "n".toList).1 (by decide),
    ⟨_, _, rfl,
      (C8_file_exists "inv".toList (fun _ => none) [] ⟨2024, 1, 2⟩ "1".toList
        "n".toList).2 (initState "inv".toList (fun _ => none)) _ _ [7] rfl⟩⟩

/-- C9 (counterexample): the year-filter clause fails for the filter 0.
`if year:` is false for 0, so `list_existing_invoices(0)` falls into the
unfiltered branch: with one saved 2024 invoice on disk and no year directory
named 0, it returns that invoice instead of the empty result the claim
requires for an absent year directory. -/
theorem C9_list_year_zero_counterexample :
    (list_existing_invoices (runOps (initState "inv".toList (fun _ => none))
        [FMOp.save [7] ⟨2024, 1, 2⟩ "5".toList "n".toList]) (some 0)).length = 1 ∧
    (runOps (initState "inv".toList (fun _ => none))
        [FMOp.save [7] ⟨2024, 1, 2⟩ "5".toList "n".toList]).entries.all
      (fun e => !(e.yearDir == "0".toList)) = true := by
  decide

/-- C9 (amended): over any history of saves (Python datetimes are always
calendar-valid), listing is sorted ascending by date for every filter; for
every nonzero year filter the result is exactly the subset of the unfiltered
listing whose parsed year equals the filter (so an absent year directory
gives the empty result); and the unfiltered count is the sum of the per-year
counts over any duplicate-free family of nonzero years covering the store.
A zero year filter, being falsy, behaves as no filter at all. -/
theorem C9_list_existing (base : List Char)
    (we : List Char × List Char × List Char → Option (List Char)) (ops : List FMOp)
    (hops : ∀ op ∈ ops, opValid op) :
    (∀ year, List.Sorted invLe
      (list_existing_invoices (runOps (initState base we) ops) year)) ∧
    (∀ y, y ≠ 0 → ∀ pr,
      pr ∈ list_existing_invoices (runOps (initState base we) ops) (some y) ↔
        pr ∈ list_existing_invoices (runOps (initState base we) ops) none ∧
          pr.2.date.year = y) ∧
    (∀ y, y ≠ 0 →
      (∀ e ∈ (runOps (initState base we) ops).entries, e.yearDir ≠ natToDigits y) →
      list_existing_invoices (runOps (initState base we) ops) (some y) = []) ∧
    (∀ ys : List Nat, ys.Nodup → (∀ y ∈ ys, y ≠ 0) →
      (∀ e ∈ (runOps (initState base we) ops).entries,
        ∃ y ∈ ys, e.yearDir = natToDigits y) →
      (list_existing_invoices (runOps (initState base we) ops) none).length =
        (ys.map (fun y =>
          (list_existing_invoices (runOps (initState base we) ops) (some y)).length)).sum) := by
  have hsh : ∀ e ∈ (runOps (initState base we) ops).entries, SavedShape e :=
    savedShape_runOps ops (initState base we) hops
      (fun e he => absurd he (List.not_mem_nil e))
  refine ⟨fun year => list_sorted _ year,
    fun y hy pr => list_year_filter_mem _ hsh y hy pr,
    fun y hy h => list_year_absent _ y hy h, ?_⟩
  intro ys hnd h0 hcov
  have hall : allDigitDirs (runOps (initState base we) ops).entries =
      (runOps (initState base we) ops).entries :=
    List.filter_eq_self.mpr (fun e he => by
      obtain ⟨y, _, hey⟩ := hcov e he
      exact digit_dir_cond hey)
  have hmain : (list_existing_invoices (runOps (initState base we) ops) none).length =
      (ys.map (fun y =>
        (((runOps (initState base we) ops).entries.filter
            (fun e => e.yearDir == natToDigits y)).filterMap
          (parseEntry (runOps (initState base we) ops))).length)).sum := by
    unfold list_existing_invoices
    rw [List.length_insertionSort]
    rw [show searchDirs (runOps (initState base we) ops) none =
        allDigitDirs (runOps (initState base we) ops).entries from rfl, hall]
    exact count_partition _ ys hnd _ hcov
  rw [hmain]
  refine (congrArg List.sum (List.map_congr_left ?_)).symm
  intro y hy
  have hsd : searchDirs (runOps (initState base we) ops) (some y) =
      (runOps (initState base we) ops).entries.filter
        (fun e => e.yearDir == natToDigits y) := by
    show (if y = 0 then allDigitDirs (runOps (initState base we) ops).entries
      else (runOps (initState base we) ops).entries.filter
        (fun e => e.yearDir == natToDigits y)) = _
    rw [if_neg (h0 y hy)]
  show (list_existing_invoices (runOps (initState base we) ops) (some y)).length = _
  unfold list_existing_invoices
  rw [List.length_insertionSort, hsd]

/-- C9 witness: one saved 2024 invoice; the unfiltered listing is sorted and
its count equals the sum of the per-year counts over the year family [2024]. -/
theorem C9_list_existing_witness :
    List.Sorted invLe (list_existing_invoices (runOps (initState "inv".toList
      (fun _ => none)) [FMOp.save [7] ⟨2024, 1, 2⟩ "5".toList "n".toList]) none) ∧
    (list_existing_invoices (runOps (initState "inv".toList (fun _ => none))
        [FMOp.save [7] ⟨2024, 1, 2⟩ "5".toList "n".toList]) none).length =
      ([2024].map (fun y =>
        (list_existing_invoices (runOps (initState "inv".toList (fun _ => none))
          [FMOp.save [7] ⟨2024, 1, 2⟩ "5".toList "n".toList]) (some y)).length)).sum :=
  ⟨(C9_list_existing "inv".toList (fun _ => none)
      [FMOp.save [7] ⟨2024, 1, 2⟩ "5".toList "n".toList] (by decide)).1 none,
    (C9_list_existing "inv".toList (fun _ => none)
      [FMOp.save [7] ⟨2024, 1, 2⟩ "5".toList "n".toList] (by decide)).2.2.2
      [2024] (by decide) (by decide) (by decide)⟩
